import Mathlib

/-
Shallow embedding of the core of the `teep_arq_flow` gateway:
path normalization and joining (src/ftp_manager.py, src/peripheral/generic_file_transfer.py),
the per-peripheral worker's broker-side handler `process_message` and its command handlers
(src/peripheral/generic_file_transfer.py), and the broker supervisor's queue declaration,
start, reconnect_now and internal routing (src/rabbitmq_service.py).

External effects (the remote FTP/SSH server, the local filesystem, the broker connection)
are modelled as oracle inputs; the handler's own control flow, emitted events, queue names
and comparisons are translated statement by statement from the source.
-/

namespace TeepArq

/-! ### Path model: `normalize_path` (src/ftp_manager.py) and `_join_path`
(src/peripheral/generic_file_transfer.py), over explicit character lists. -/

/-- Character step of `path.replace('\\', '/')`. -/
def slashifyChar (c : Char) : Char := if c = '\\' then '/' else c

/-- Embedding of `re.sub('/+', '/', p)`: every maximal run of `/` becomes a single `/`. -/
def collapseSlashes : List Char → List Char
  | [] => []
  | [c] => [c]
  | a :: b :: t =>
    if a = '/' ∧ b = '/' then collapseSlashes (b :: t) else a :: collapseSlashes (b :: t)

/-- Embedding of Python's `rstrip('/')`: drop every trailing slash. -/
def dropTrailingSlashes (l : List Char) : List Char :=
  (l.reverse.dropWhile (fun c => c = '/')).reverse

/-- Embedding of Python's `lstrip('/')`: drop every leading slash. -/
def dropLeadingSlashes (l : List Char) : List Char :=
  l.dropWhile (fun c => c = '/')

/-- Embedding of `if len(p) > 1 and p.endswith('/'): p = p.rstrip('/')`. -/
def stripTrailing (l : List Char) : List Char :=
  if 1 < l.length ∧ l.getLast? = some '/' then dropTrailingSlashes l else l

/-- The full `normalize_path` pipeline on character lists. -/
def normalizeL (l : List Char) : List Char :=
  stripTrailing (collapseSlashes (l.map slashifyChar))

/-- Embedding of `normalize_path` (src/ftp_manager.py, non-`None` branch): backslashes
become `/`, runs of `/` collapse to one, and a trailing `/` is stripped when the length
exceeds one. -/
def normalize_path (s : String) : String := ⟨normalizeL s.data⟩

/-- Embedding of the `None` guard of `normalize_path`: `None` maps to the empty string. -/
def normalize_path_opt : Option String → String
  | none => ""
  | some s => normalize_path s

/-- Embedding of `_join_path` (src/peripheral/generic_file_transfer.py): strip trailing
slashes from `base` and leading slashes from `part`, then concatenate with one `/`;
an empty stripped base yields a `/`-prefixed result. -/
def _join_path (base part : String) : String :=
  let b := dropTrailingSlashes base.data
  let p := dropLeadingSlashes part.data
  if b = [] then (if p = [] then ("/") else ⟨'/' :: p⟩)
  else (if p = [] then ⟨b⟩ else ⟨b ++ '/' :: p⟩)

/-- Bool test for two adjacent slashes: `okPairs l = true` iff `l` has no `//` run. -/
def okPairs : List Char → Bool
  | a :: b :: t => !((a == '/') && (b == '/')) && okPairs (b :: t)
  | _ => true

/-- Embedding of `posixpath.dirname`, used by the worker to create remote parent
directories before an upload. -/
def posixDirname (s : String) : String :=
  let head := (s.data.reverse.dropWhile (fun c => c ≠ '/')).reverse
  if head = [] then ("")
  else if head.all (fun c => c = '/') then ⟨head⟩
  else ⟨dropTrailingSlashes head⟩

/-- Embedding of the two-argument `posixpath.join`. -/
def posixJoin (a b : String) : String :=
  if b.data.head? = some '/' then b
  else if a = "" ∨ a.data.getLast? = some '/' then a ++ b
  else a ++ "/" ++ b

/-- Embedding of `os.path.basename` for POSIX paths: the part after the last `/`. -/
def basenameOf (s : String) : String :=
  ⟨(s.data.reverse.takeWhile (fun c => c ≠ '/')).reverse⟩

/-- Code-point comparison on character lists, the order Python's `sorted` uses for
strings. -/
def charListLeB : List Char → List Char → Bool
  | [], _ => true
  | _ :: _, [] => false
  | a :: as, b :: bs =>
    if a.toNat < b.toNat then true
    else if a.toNat = b.toNat then charListLeB as bs
    else false

/-- Code-point comparison on strings. -/
def strLeB (a b : String) : Bool := charListLeB a.data b.data

/-- Embedding of Python's `sorted` on a list of strings (a stable sort under the
code-point order). -/
def sortStrings (l : List String) : List String :=
  l.insertionSort (fun x y => strLeB x y = true)

/-! ### Action tags. -/

/-- Modelled from the spec: the `ActionTable` enum lives in `helpers/enums.py`, which is
not under `src/`; the spec's closed ActionTag set fixes each tag's wire value to its
name. -/
def ActionTable.GET_SERVER_FILE_TREE : String := "GET_SERVER_FILE_TREE"

/-- Modelled from the spec: ActionTable wire tag. -/
def ActionTable.SERVER_FILE_TREE : String := "SERVER_FILE_TREE"

/-- Modelled from the spec: ActionTable wire tag. -/
def ActionTable.GET_REMOTE_FILE_TREE : String := "GET_REMOTE_FILE_TREE"

/-- Modelled from the spec: ActionTable wire tag. -/
def ActionTable.CLIENT_FILE_TREE : String := "CLIENT_FILE_TREE"

/-- Modelled from the spec: ActionTable wire tag. -/
def ActionTable.STREAM_FILE : String := "STREAM_FILE"

/-- Modelled from the spec: ActionTable wire tag. -/
def ActionTable.STREAM_DIRECTORY : String := "STREAM_DIRECTORY"

/-- Modelled from the spec: ActionTable wire tag. -/
def ActionTable.START_STREAM_FILE : String := "START_STREAM_FILE"

/-- Modelled from the spec: ActionTable wire tag. -/
def ActionTable.PROGRESS_SEND_FILE : String := "PROGRESS_SEND_FILE"

/-- Modelled from the spec: ActionTable wire tag. -/
def ActionTable.FINISH_STREAM_FILE : String := "FINISH_STREAM_FILE"

/-- Modelled from the spec: ActionTable wire tag. -/
def ActionTable.DOWNLOAD_FILE : String := "DOWNLOAD_FILE"

/-- Modelled from the spec: ActionTable wire tag. -/
def ActionTable.DOWNLOAD_DIRECTORY : String := "DOWNLOAD_DIRECTORY"

/-- Modelled from the spec: ActionTable wire tag. -/
def ActionTable.START_DOWNLOAD_FILE : String := "START_DOWNLOAD_FILE"

/-- Modelled from the spec: ActionTable wire tag. -/
def ActionTable.FINISH_DOWNLOAD_FILE : String := "FINISH_DOWNLOAD_FILE"

/-- Modelled from the spec: ActionTable wire tag. -/
def ActionTable.ERROR_DOWNLOAD_FILE : String := "ERROR_DOWNLOAD_FILE"

/-- Modelled from the spec: ActionTable wire tag. -/
def ActionTable.DELETE_REMOTE_FILE : String := "DELETE_REMOTE_FILE"

/-- Modelled from the spec: ActionTable wire tag. -/
def ActionTable.DELETE_REMOTE_DIRECTORY : String := "DELETE_REMOTE_DIRECTORY"

/-- Modelled from the spec: ActionTable wire tag. -/
def ActionTable.ERROR : String := "ERROR"

/-! ### Worker data model. -/

/-- A local directory entry as produced by `_handle_list_local_directory`. -/
structure FSEntry where
  name : String
  is_dir : Bool
  size : Nat
  modified : Int
deriving DecidableEq, Repr

/-- The payload of a PROGRESS_SEND_FILE event, mirroring the dict the worker builds. -/
structure ProgressPayload where
  file : String
  file_index : Option Nat
  total_files : Option Nat
  bytes_sent : Option Nat
  total_bytes : Option Nat
  percent : Nat
deriving DecidableEq, Repr

/-- One per-path size mismatch reported by verification. -/
structure Mismatch where
  path : String
  local_size : Option Nat
  remote_size : Option Nat
deriving DecidableEq, Repr

/-- The verification result built after a directory upload. -/
structure VerificationR where
  success : Bool
  missing_on_remote : List String
  extra_on_remote : List String
  size_mismatches : List Mismatch
deriving DecidableEq, Repr

/-- The verification result built after a directory download. -/
structure DlVerificationR where
  success : Bool
  missing_locally : List String
  extra_locally : List String
  size_mismatches : List Mismatch
deriving DecidableEq, Repr

/-- The value slot of an outbound message, one constructor per shape the worker
actually publishes. -/
inductive RVal where
  | empty
  | text (s : String)
  | entries (l : List FSEntry)
  | status (s : String)
  | progress (p : ProgressPayload)
  | uploadRes (success : Bool) (errors : List String)
  | boolV (b : Bool)
  | successDict (b : Bool)
  | errDict (msg : String)
deriving DecidableEq, Repr

/-- Remote-session operations the worker can invoke through its transfer manager.
`mkdirs` stands for the best-effort per-segment directory creation of
`_ensure_remote_dirs`, and `listRemote` for the recursive listing walk driving
verification. -/
inductive ROp where
  | connect
  | disconnect
  | mkdirs (path : String)
  | upload (src dst : String)
  | download (src dst : String)
  | downloadDir (src dst : String)
  | listRemote (path : String)
  | deleteFile (path : String)
  | deletePath (path : String)
deriving DecidableEq, Repr

/-- An outbound broker publication, as assembled by `_build_response` and `_send`. -/
structure Send where
  action : String
  queue : String
  value : RVal
deriving DecidableEq, Repr

/-- Broker-channel operations emitted while handling one delivery. -/
inductive BOp where
  | publish (s : Send)
  | ack
  | nack (requeue : Bool)
deriving DecidableEq, Repr

/-- The `GENERIC_FILE_TRANSFER` section of a peripheral's channel map, as read by the
worker's `IO` helper class. -/
structure IOParams where
  index : String
  server_side_path : String
  remote_side_path : String
deriving DecidableEq, Repr

/-- Oracle for the world outside the worker: the remote server, the local filesystem
and the wall clock. `localWalk` is the relative-path/size listing produced by
`os.walk` + `getsize` under the upload source directory (`none` sizes mirror a
failed `getsize`); `remoteMap` is the relative-path/size map the recursive
`list_remote` walk yields; `uploadOk` gives each per-file upload's outcome. -/
structure RemoteEnv where
  connectOk : Bool
  localScan : Option (List FSEntry)
  listing : List FSEntry
  localWalk : List (String × Option Nat)
  uploadOk : String → Bool
  fileSize : Option Nat
  singleUploadOk : Bool
  remoteMap : List (String × Option Nat)
  downloadOk : Bool
  dlLocalWalk : List (String × Option Nat)
  deleteOk : Bool
  timestamp : String

/-- What one command handler produces: its `_send` publications (action, value), its
remote-session operations, its operation-log appends, and the value returned to
`process_message`. -/
structure HandlerOut where
  pubs : List (String × RVal)
  rops : List ROp
  logs : List String
  result : RVal

/-- A JSON command envelope after parsing: the `action` tag (absent when the message
carries none) and the `local_path` / `remote_path` fields of `data.value`, each
defaulted to the empty string as in the source. -/
structure Envelope where
  action : Option String
  localPath : String
  remotePath : String
deriving DecidableEq, Repr

/-- Python `f"...{action}"` rendering of a possibly missing action tag. -/
def actionRepr : Option String → String
  | none => "None"
  | some a => a

/-- The eight actions `process_message` dispatches on. -/
def knownActions : List String :=
  [ActionTable.GET_SERVER_FILE_TREE, ActionTable.GET_REMOTE_FILE_TREE,
   ActionTable.STREAM_DIRECTORY, ActionTable.STREAM_FILE,
   ActionTable.DOWNLOAD_FILE, ActionTable.DOWNLOAD_DIRECTORY,
   ActionTable.DELETE_REMOTE_FILE, ActionTable.DELETE_REMOTE_DIRECTORY]

/-! ### Worker handlers. -/

/-- Embedding of `_with_ftp`: connect first; on failure return the error dict without
running the operation; on success run it and disconnect at the end. -/
def withFtp (connectOk : Bool) (f : Unit → HandlerOut) : HandlerOut :=
  if connectOk then
    let o := f ()
    { o with rops := ROp.connect :: (o.rops ++ [ROp.disconnect]) }
  else
    { pubs := [], rops := [ROp.connect], logs := [], result := .errDict ("Falha ao conectar FTP") }

/-- Embedding of `_handle_list_local_directory`: `os.scandir` results, or `[]` when the
scan raises. -/
def handleListLocalDirectory (scan : Option (List FSEntry)) (localPath path : String) :
    List FSEntry :=
  let _fullPath := _join_path localPath path
  match scan with
  | some entries => entries
  | none => []

/-- Embedding of `_handle_list_directory`. -/
def handleListDirectory (env : RemoteEnv) (cfg : IOParams) (remotePath : String) :
    HandlerOut :=
  withFtp env.connectOk (fun _ =>
    let fullRemote := _join_path cfg.remote_side_path remotePath
    { pubs := [], rops := [.listRemote fullRemote], logs := [], result := .entries env.listing })

/-- Embedding of the upload-file handler `_handle_upload_file`: START, a 0% progress
event, best-effort parent directory creation, the upload, a 100% progress event,
FINISH. -/
def handleUploadFile (env : RemoteEnv) (cfg : IOParams) (localPath remotePath : String) :
    HandlerOut :=
  withFtp env.connectOk (fun _ =>
    let localFile := _join_path cfg.server_side_path localPath
    let filename := basenameOf localFile
    let remoteDir := _join_path cfg.remote_side_path remotePath
    let remoteFile := _join_path remoteDir filename
    let totalBytes := env.fileSize
    { pubs := [(ActionTable.START_STREAM_FILE, .empty),
               (ActionTable.PROGRESS_SEND_FILE,
                 .progress ⟨filename, none, none, some 0, totalBytes, 0⟩),
               (ActionTable.PROGRESS_SEND_FILE,
                 .progress ⟨filename, none, none, totalBytes, totalBytes, 100⟩),
               (ActionTable.FINISH_STREAM_FILE, .empty)],
      rops := [.mkdirs (posixDirname remoteFile), .upload localFile remoteFile],
      logs := [],
      result := .boolV env.singleUploadOk })

/-- Python truthiness step `if size: bytes += int(size)`. -/
def truthyAdd (b : Nat) (sz : Option Nat) : Nat :=
  match sz with
  | some s => if s = 0 then b else b + s
  | none => b

/-- Total byte count accumulated over the walked files. -/
def totalBytesOf (files : List (String × Option Nat)) : Nat :=
  files.foldl (fun acc f => truthyAdd acc f.2) 0

/-- Embedding of the remote target computation of the directory-upload loop:
`posixpath.join(remote_dir.rstrip('/'), rel).lstrip('/')` with a `/` prefix. -/
def remoteTargetFor (remoteDir rel : String) : String :=
  let t := posixJoin ⟨dropTrailingSlashes remoteDir.data⟩ rel
  "/" ++ (⟨dropLeadingSlashes t.data⟩ : String)

/-- Model of `os.path.join(root, f)` for the walked file's absolute path. -/
def localAbsOf (localDir rel : String) : String := localDir ++ "/" ++ rel

/-- Embedding of `(remote_dir or '/').rstrip('/')` with the empty result replaced by
the root. -/
def baseRemoteOf (remoteDir : String) : String :=
  let b : String := ⟨dropTrailingSlashes remoteDir.data⟩
  if b = "" then ("/") else b

/-- State threaded through the per-file loop of `_handle_upload_directory`. -/
structure DirLoopSt where
  done : Nat
  bytes : Nat
  errs : List String
  pubs : List (String × RVal)
  rops : List ROp

/-- One iteration of the per-file upload loop: ensure remote parents, upload, collect
the error on failure, update counters, and publish one progress event whose percent
is over bytes when the total byte count is positive, else over files processed. -/
def dirStep (upOk : String → Bool) (localDir remoteDir : String) (tb tf : Nat)
    (st : DirLoopSt) (f : String × Option Nat) : DirLoopSt :=
  let rel := f.1
  let target := remoteTargetFor remoteDir rel
  let ok := upOk rel
  let errs := if ok then st.errs else st.errs ++ [rel]
  let done := st.done + 1
  let bytes := truthyAdd st.bytes f.2
  let percent := if 0 < tb then bytes * 100 / tb else (if 0 < tf then done * 100 / tf else 100)
  { done := done, bytes := bytes, errs := errs,
    pubs := st.pubs ++ [(ActionTable.PROGRESS_SEND_FILE,
      .progress ⟨rel, some done, some tf, some bytes, some tb, percent⟩)],
    rops := st.rops ++ [.mkdirs (posixDirname target), .upload (localAbsOf localDir rel) target] }

/-- Embedding of `sorted(files_to_upload, key=lambda x: x[1])`: stable sort by relative
path. -/
def sortFilesByRel (files : List (String × Option Nat)) : List (String × Option Nat) :=
  files.insertionSort (fun x y => strLeB x.1 y.1 = true)

/-- Dict read (`m.get(k)`) on the relative-path/size maps. -/
def mapGet (m : List (String × Option Nat)) (k : String) : Option Nat := (m.lookup k).join

/-- The size-comparison branch of verification: with a `None` on either side compare
raw values, else compare the integers. -/
def sizeDiffers (l r : Option Nat) : Bool :=
  if l.isNone || r.isNone then decide (l ≠ r) else decide (l.getD 0 ≠ r.getD 0)

/-- Embedding of the verification block of `_handle_upload_directory`: sorted missing,
extra and mismatch lists from the local and remote maps, and the overall success
flag. -/
def uploadDirVerify (localMap remoteMap : List (String × Option Nat))
    (uploadErrors : List String) : VerificationR :=
  let localKeys := (localMap.map Prod.fst).dedup
  let remoteKeys := (remoteMap.map Prod.fst).dedup
  let missing := sortStrings (localKeys.filter (fun k => decide (¬ k ∈ remoteKeys)))
  let extra := sortStrings (remoteKeys.filter (fun k => decide (¬ k ∈ localKeys)))
  let common := sortStrings (localKeys.filter (fun k => decide (k ∈ remoteKeys)))
  let mismatches := common.filterMap (fun k =>
    let lsize := mapGet localMap k
    let rsize := mapGet remoteMap k
    if sizeDiffers lsize rsize then some (Mismatch.mk k lsize rsize) else none)
  { success := (missing.length == 0) && (mismatches.length == 0) && (uploadErrors.length == 0),
    missing_on_remote := missing,
    extra_on_remote := extra,
    size_mismatches := mismatches }

/-- Embedding of the verification block of `_handle_download_directory` (remote is the
reference side; upload errors play no role). -/
def downloadDirVerify (remoteMap localMap : List (String × Option Nat)) : DlVerificationR :=
  let remoteKeys := (remoteMap.map Prod.fst).dedup
  let localKeys := (localMap.map Prod.fst).dedup
  let missing := sortStrings (remoteKeys.filter (fun k => decide (¬ k ∈ localKeys)))
  let extra := sortStrings (localKeys.filter (fun k => decide (¬ k ∈ remoteKeys)))
  let common := sortStrings (remoteKeys.filter (fun k => decide (k ∈ localKeys)))
  let mismatches := common.filterMap (fun k =>
    let rsize := mapGet remoteMap k
    let lsize := mapGet localMap k
    if sizeDiffers lsize rsize then some (Mismatch.mk k lsize rsize) else none)
  { success := (missing.length == 0) && (mismatches.length == 0),
    missing_locally := missing,
    extra_locally := extra,
    size_mismatches := mismatches }

/-- Embedding of `_handle_upload_directory`: START with a status payload, the sorted
per-file upload loop with one progress event per file, FINISH carrying the collected
errors, then verification; the handler's return value is the verification success
flag. -/
def handleUploadDirectory (env : RemoteEnv) (cfg : IOParams) (localPath remotePath : String) :
    HandlerOut :=
  let newRemotePath := localPath
  let localDir := _join_path cfg.server_side_path localPath
  let remoteDir := _join_path (_join_path cfg.remote_side_path remotePath) newRemotePath
  withFtp env.connectOk (fun _ =>
    let files := env.localWalk
    let tb := totalBytesOf files
    let tf := files.length
    let fin := (sortFilesByRel files).foldl (dirStep env.uploadOk localDir remoteDir tb tf)
      ⟨0, 0, [], [], []⟩
    let verification := uploadDirVerify env.localWalk env.remoteMap fin.errs
    { pubs := (ActionTable.START_STREAM_FILE, RVal.status ("start")) :: fin.pubs
        ++ [(ActionTable.FINISH_STREAM_FILE, .uploadRes (fin.errs.length == 0) fin.errs)],
      rops := fin.rops ++ [.listRemote (baseRemoteOf remoteDir)],
      logs := ["Upload Directory"],
      result := .boolV verification.success })

/-- Embedding of `_handle_download_file`. -/
def handleDownloadFile (env : RemoteEnv) (cfg : IOParams) (localPath remotePath : String) :
    HandlerOut :=
  withFtp env.connectOk (fun _ =>
    let remoteFile := _join_path cfg.remote_side_path remotePath
    let localFile := _join_path cfg.server_side_path localPath
    { pubs := [(ActionTable.START_DOWNLOAD_FILE, .empty),
               (ActionTable.FINISH_DOWNLOAD_FILE, .empty)],
      rops := [.download remoteFile localFile],
      logs := [],
      result := .boolV env.downloadOk })

/-- Embedding of `_handle_download_directory`: download into the timestamp-suffixed
local directory, then verify remote against local; the return value is the
verification success flag. -/
def handleDownloadDirectory (env : RemoteEnv) (cfg : IOParams)
    (localPath remotePath : String) : HandlerOut :=
  withFtp env.connectOk (fun _ =>
    let remoteDir := _join_path cfg.remote_side_path remotePath
    let localDir := _join_path cfg.server_side_path
      (localPath ++ "_download_" ++ env.timestamp)
    let v := downloadDirVerify env.remoteMap env.dlLocalWalk
    { pubs := [(ActionTable.START_DOWNLOAD_FILE, .empty),
               (ActionTable.FINISH_DOWNLOAD_FILE, .empty)],
      rops := [.downloadDir remoteDir localDir, .listRemote (baseRemoteOf remoteDir)],
      logs := ["Download Directory"],
      result := .boolV v.success })

/-- Embedding of `_handle_delete_remote_file` (the path is joined before the session
wrapper runs). -/
def handleDeleteRemoteFile (env : RemoteEnv) (cfg : IOParams) (remotePath : String) :
    HandlerOut :=
  let fullPath := _join_path cfg.remote_side_path remotePath
  withFtp env.connectOk (fun _ =>
    { pubs := [], rops := [.deleteFile fullPath], logs := [],
      result := .successDict env.deleteOk })

/-- Embedding of `_handle_delete_remote_directory`. -/
def handleDeleteRemoteDirectory (env : RemoteEnv) (cfg : IOParams) (remotePath : String) :
    HandlerOut :=
  let fullPath := _join_path cfg.remote_side_path remotePath
  withFtp env.connectOk (fun _ =>
    { pubs := [], rops := [.deletePath fullPath], logs := [],
      result := .successDict env.deleteOk })

/-- The action dispatch of `process_message`: each known tag runs its handler and fixes
the reply action; anything else falls through to the ERROR reply with the unknown
command text and no handler call. -/
def dispatch (env : RemoteEnv) (cfg : IOParams) (e : Envelope) : HandlerOut × String :=
  if e.action = some ActionTable.GET_SERVER_FILE_TREE then
    ({ pubs := [], rops := [], logs := [],
       result := .entries (handleListLocalDirectory env.localScan cfg.server_side_path e.localPath) },
     ActionTable.SERVER_FILE_TREE)
  else if e.action = some ActionTable.GET_REMOTE_FILE_TREE then
    (handleListDirectory env cfg e.remotePath, ActionTable.CLIENT_FILE_TREE)
  else if e.action = some ActionTable.STREAM_DIRECTORY then
    (handleUploadDirectory env cfg e.localPath e.remotePath, ActionTable.STREAM_DIRECTORY)
  else if e.action = some ActionTable.STREAM_FILE then
    (handleUploadFile env cfg e.localPath e.remotePath, ActionTable.STREAM_FILE)
  else if e.action = some ActionTable.DOWNLOAD_FILE then
    (handleDownloadFile env cfg e.localPath e.remotePath, ActionTable.DOWNLOAD_FILE)
  else if e.action = some ActionTable.DOWNLOAD_DIRECTORY then
    (handleDownloadDirectory env cfg e.localPath e.remotePath, ActionTable.DOWNLOAD_DIRECTORY)
  else if e.action = some ActionTable.DELETE_REMOTE_FILE then
    (handleDeleteRemoteFile env cfg e.remotePath, ActionTable.DELETE_REMOTE_FILE)
  else if e.action = some ActionTable.DELETE_REMOTE_DIRECTORY then
    (handleDeleteRemoteDirectory env cfg e.remotePath, ActionTable.DELETE_REMOTE_DIRECTORY)
  else
    ({ pubs := [], rops := [], logs := [],
       result := .text ("Comando desconhecido: " ++ actionRepr e.action) }, ActionTable.ERROR)

/-- Embedding of `GenericFileTransfer._send`: every worker publication goes to the
queue `recv_queue_index_<index>`. -/
def mkSend (idx : String) (av : String × RVal) : Send :=
  { action := av.1, queue := "recv_queue_index_" ++ idx, value := av.2 }

/-- The effect trace of one broker delivery. -/
structure Trace where
  broker : List BOp
  remote : List ROp
  logs : List String

/-- Embedding of `GenericFileTransfer.process_message`: a body that fails to parse into
a command dict raises inside the `try` block and is nacked without requeue; a parsed
envelope is dispatched, its reply (and any handler publications) are published on the
worker's outbound queue, the delivery is acked, and the operation is logged. The broker
publish and the operation log are non-raising in the source (`send_message` swallows
its errors; the spec's ConfigStore contract is infallible). -/
def processMessage (env : RemoteEnv) (cfg : IOParams) (body : Option Envelope) : Trace :=
  match body with
  | none => { broker := [.nack false], remote := [], logs := [] }
  | some e =>
    let d := dispatch env cfg e
    { broker := ((d.1.pubs ++ [(d.2, d.1.result)]).map
        (fun av => BOp.publish (mkSend cfg.index av))) ++ [BOp.ack],
      remote := d.1.rops,
      logs := d.1.logs ++ [d.2] }

/-- Selects the ack/nack operations of a trace. -/
def isAckNack : BOp → Bool
  | .publish _ => false
  | _ => true

/-- The ack/nack sub-trace of a delivery. -/
def ackNacks (t : Trace) : List BOp := t.broker.filter isAckNack

/-- The publications of a delivery, in order. -/
def sendsOf (t : Trace) : List Send :=
  t.broker.filterMap (fun op => match op with | .publish s => some s | _ => none)

/-- The PROGRESS_SEND_FILE payloads among a handler's publications, in order. -/
def progressEvents (pubs : List (String × RVal)) : List ProgressPayload :=
  pubs.filterMap (fun av => match av with
    | (a, .progress p) => if a = ActionTable.PROGRESS_SEND_FILE then some p else none
    | _ => none)

/-- The percent discipline of the directory-upload loop, stated on a progress
payload's own recorded fields: percent is over bytes when the recorded total byte
count is positive, else over files processed. -/
def percentSpec (tb tf : Nat) (e : ProgressPayload) : Prop :=
  e.total_bytes = some tb ∧ e.total_files = some tf ∧
  e.percent = (if 0 < tb then (e.bytes_sent.getD 0) * 100 / tb
    else if 0 < tf then (e.file_index.getD 0) * 100 / tf else 100)

/-- The final state of the per-file upload loop of `_handle_upload_directory`. -/
def dirLoopResult (env : RemoteEnv) (cfg : IOParams) (lp rp : String) : DirLoopSt :=
  (sortFilesByRel env.localWalk).foldl
    (dirStep env.uploadOk (_join_path cfg.server_side_path lp)
      (_join_path (_join_path cfg.remote_side_path rp) lp)
      (totalBytesOf env.localWalk) env.localWalk.length)
    ⟨0, 0, [], [], []⟩

/-- A concrete oracle for witnesses and counterexamples: connecting succeeds, the
upload source holds one file `a.txt` of five bytes, every remote operation succeeds,
and the remote listing mirrors the local walk. -/
def sampleEnv : RemoteEnv :=
  { connectOk := true, localScan := some [], listing := [],
    localWalk := [("a.txt", some 5)], uploadOk := fun _ => true,
    fileSize := some 5, singleUploadOk := true,
    remoteMap := [("a.txt", some 5)], downloadOk := true, dlLocalWalk := [],
    deleteOk := true, timestamp := "120000_01012026" }

/-- A concrete worker configuration for witnesses: virtual index `7`. -/
def sampleCfg : IOParams :=
  { index := "7", server_side_path := "/srv", remote_side_path := "/dst" }

/-! ### Broker supervisor (src/rabbitmq_service.py). -/

/-- A configured peripheral as `declare_queues` sees it: its (already JSON-decoded)
`json_channel_to_virtual_index` mapping. -/
structure Peripheral where
  channelMap : List (String × List (String × String))
deriving DecidableEq, Repr

/-- Embedding of the worker's index resolution: the `GENERIC_FILE_TRANSFER` section
(defaulting to the empty mapping) queried for `index` (defaulting to `None`). -/
def peripheralIndex (p : Peripheral) : Option String :=
  ((p.channelMap.lookup ("GENERIC_FILE_TRANSFER")).getD []).lookup ("index")

/-- The broker topology accumulated by `declare_queues`: declared queue names, consumer
subscriptions (queue name, worker index), the consumed-queue set and the index keys of
`queue_pool`. -/
structure Topology where
  declared : List String
  subs : List (String × String)
  consumed : List String
  pool : List String
deriving DecidableEq, Repr

/-- The topology at the start of a generation. -/
def emptyTopology : Topology := ⟨[], [], [], []⟩

/-- The per-peripheral body of `declare_queues` once the index `vi` resolved: declare
the `recv_queue_index_<vi>` and `send_queue_index_<vi>` queues, subscribe the worker's
`process_message` to the send queue when not already consumed, and register the
worker's command queue under the index. -/
def declareStep (t : Topology) (vi : String) : Topology :=
  let recvQ := "recv_queue_index_" ++ vi
  let sendQ := "send_queue_index_" ++ vi
  if sendQ ∈ t.consumed then
    { t with declared := t.declared ++ [recvQ, sendQ], pool := t.pool ++ [vi] }
  else
    { declared := t.declared ++ [recvQ, sendQ],
      subs := t.subs ++ [(sendQ, vi)],
      consumed := t.consumed ++ [sendQ],
      pool := t.pool ++ [vi] }

/-- Embedding of the peripheral loop of `RabbitMQService.declare_queues`: per
peripheral, resolve the index (raising `ValueError` when it is `None`, which aborts
the whole declaration) and run the declaration step. -/
def declarePeripherals : List Peripheral → Topology → Except String Topology
  | [], t => .ok t
  | p :: ps, t =>
    match peripheralIndex p with
    | none => .error ("Peripheral index is required for queue declaration")
    | some vi => declarePeripherals ps (declareStep t vi)

/-- Embedding of the peripheral part of `declare_queues` from the empty topology. -/
def declare_queues (ps : List Peripheral) : Except String Topology :=
  declarePeripherals ps emptyTopology

/-- Terminal condition of one `start()` invocation. -/
inductive StartOutcome where
  | stopped
  | consuming
deriving DecidableEq, Repr

/-- Abstraction of `RabbitMQService.start` with a reachable broker: a `ValueError`
raised by `declare_queues` is caught, `stop()` runs (clearing `running`) and the
service loop exits; otherwise the service stays consuming. -/
def startOutcome (ps : List Peripheral) : StartOutcome :=
  match declare_queues ps with
  | .error _ => .stopped
  | .ok _ => .consuming

/-- Connection-facing state of the supervisor. -/
structure SupervisorState where
  connectionOpen : Bool
  channelOpen : Bool
  generation : Nat
deriving DecidableEq, Repr

/-- Embedding of `RabbitMQService.reconnect_now` exactly as written: it logs and
returns `None` without touching the connection, the channel or the topology. -/
def reconnect_now (s : SupervisorState) : SupervisorState × Option Bool := (s, none)

/-- An internal routed message (models.message.Message as used by the router). -/
structure Message where
  index : Option String
  cmd : String
deriving DecidableEq, Repr

/-- Appending a message to the command queue registered under a given index. -/
def updatePool (pool : List (String × List Message)) (i : String) (m : Message) :
    List (String × List Message) :=
  pool.map (fun kv => if kv.1 = i then (kv.1, kv.2 ++ [m]) else kv)

/-- Embedding of `RabbitMQService.route_to_next_queue`: a message without an index, or
with an index no command queue is registered for, is dropped with a log; otherwise it
is put on that queue. -/
def route_to_next_queue (pool : List (String × List Message)) (m : Message) :
    List (String × List Message) :=
  match m.index with
  | none => pool
  | some i =>
    match pool.lookup i with
    | none => pool
    | some _ => updatePool pool i m

/-! ### Lemmas about the path model. -/

lemma backslash_not_mem_map_slashify (l : List Char) : '\\' ∉ l.map slashifyChar := by
  intro h
  rcases List.mem_map.1 h with ⟨c, _, hc⟩
  by_cases h' : c = '\\'
  · simp [slashifyChar, h'] at hc
  · rw [slashifyChar, if_neg h'] at hc
    exact h' hc

lemma map_slashify_of_not_mem (l : List Char) (h : '\\' ∉ l) : l.map slashifyChar = l := by
  induction l with
  | nil => rfl
  | cons a t ih =>
    simp only [List.mem_cons] at h
    push_neg at h
    simp [slashifyChar, Ne.symm h.1, ih h.2]

lemma collapseSlashes_head? (l : List Char) : (collapseSlashes l).head? = l.head? := by
  induction l with
  | nil => rfl
  | cons a t ih =>
    cases t with
    | nil => rfl
    | cons b t' =>
      by_cases hab : a = '/' ∧ b = '/'
      · rw [collapseSlashes, if_pos hab]
        rw [ih]
        simp [hab.1, hab.2]
      · rw [collapseSlashes, if_neg hab]
        rfl

lemma collapseSlashes_ne_nil {l : List Char} (h : l ≠ []) : collapseSlashes l ≠ [] := by
  intro hc
  have := collapseSlashes_head? l
  rw [hc] at this
  cases l with
  | nil => exact h rfl
  | cons a t => simp at this

lemma collapseSlashes_getLast? (l : List Char) : (collapseSlashes l).getLast? = l.getLast? := by
  induction l with
  | nil => rfl
  | cons a t ih =>
    cases t with
    | nil => rfl
    | cons b t' =>
      by_cases hab : a = '/' ∧ b = '/'
      · rw [collapseSlashes, if_pos hab, ih]
        simp
      · rw [collapseSlashes, if_neg hab, List.getLast?_cons_cons, ← ih]
        have hne : collapseSlashes (b :: t') ≠ [] := collapseSlashes_ne_nil (by simp)
        rcases List.exists_cons_of_ne_nil hne with ⟨x, xs, hx⟩
        rw [hx, List.getLast?_cons_cons]

lemma mem_collapseSlashes {c : Char} : ∀ {l : List Char}, c ∈ collapseSlashes l → c ∈ l
  | [], h => h
  | [a], h => h
  | a :: b :: t, h => by
    by_cases hab : a = '/' ∧ b = '/'
    · rw [collapseSlashes, if_pos hab] at h
      exact List.mem_cons_of_mem a (mem_collapseSlashes h)
    · rw [collapseSlashes, if_neg hab] at h
      rcases List.mem_cons.1 h with h | h
      · exact h ▸ List.mem_cons_self a _
      · exact List.mem_cons_of_mem a (mem_collapseSlashes h)

lemma getLast?_cons_ne_nil {a : Char} {l : List Char} (h : l ≠ []) :
    (a :: l).getLast? = l.getLast? := by
  rcases List.exists_cons_of_ne_nil h with ⟨x, xs, rfl⟩
  rw [List.getLast?_cons_cons]

lemma okPairs_cons_cons (a b : Char) (t : List Char) :
    okPairs (a :: b :: t) = (!((a == '/') && (b == '/')) && okPairs (b :: t)) := rfl

lemma okPairs_collapseSlashes (l : List Char) : okPairs (collapseSlashes l) = true := by
  induction l with
  | nil => rfl
  | cons a t ih =>
    cases t with
    | nil => rfl
    | cons b t' =>
      by_cases hab : a = '/' ∧ b = '/'
      · rw [collapseSlashes, if_pos hab]
        exact ih
      · rw [collapseSlashes, if_neg hab]
        have hne : collapseSlashes (b :: t') ≠ [] := collapseSlashes_ne_nil (by simp)
        rcases List.exists_cons_of_ne_nil hne with ⟨x, xs, hx⟩
        have hxb : x = b := by
          have h1 := collapseSlashes_head? (b :: t')
          rw [hx] at h1
          simpa using h1
        subst hxb
        rw [hx, okPairs_cons_cons]
        rw [hx] at ih
        simp only [ih, Bool.and_true, Bool.not_eq_true', Bool.and_eq_false_iff]
        rcases Decidable.not_and_iff_or_not.1 hab with h | h
        · exact Or.inl (by simpa using h)
        · exact Or.inr (by simpa using h)

lemma okPairs_append_left {l r : List Char} (h : okPairs (l ++ r) = true) :
    okPairs l = true := by
  induction l with
  | nil => rfl
  | cons a t ih =>
    cases t with
    | nil => rfl
    | cons b t' =>
      rw [List.cons_append, List.cons_append, okPairs_cons_cons, Bool.and_eq_true] at h
      rw [okPairs_cons_cons, Bool.and_eq_true]
      exact ⟨h.1, ih (by rw [List.cons_append]; exact h.2)⟩

lemma okPairs_append_double_false (s t : List Char) :
    okPairs (s ++ '/' :: '/' :: t) = false := by
  induction s with
  | nil => simp [okPairs_cons_cons]
  | cons a s' ih =>
    cases s' with
    | nil => simp [okPairs_cons_cons]
    | cons b s'' =>
      rw [List.cons_append, List.cons_append, okPairs_cons_cons]
      rw [List.cons_append] at ih
      simp [ih]

lemma no_double_of_okPairs {l : List Char} (h : okPairs l = true) :
    ∀ u v : List Char, l ≠ u ++ '/' :: '/' :: v := by
  intro u v hl
  rw [hl, okPairs_append_double_false] at h
  exact Bool.false_ne_true h

lemma collapseSlashes_of_okPairs {l : List Char} (h : okPairs l = true) :
    collapseSlashes l = l := by
  induction l with
  | nil => rfl
  | cons a t ih =>
    cases t with
    | nil => rfl
    | cons b t' =>
      rw [okPairs_cons_cons, Bool.and_eq_true] at h
      have hab : ¬(a = '/' ∧ b = '/') := by
        intro hc
        simp [hc.1, hc.2] at h
      rw [collapseSlashes, if_neg hab, ih h.2]

lemma dropTrailingSlashes_decomp (l : List Char) :
    ∃ k, l = dropTrailingSlashes l ++ List.replicate k '/' := by
  refine ⟨(l.reverse.takeWhile (fun c => c = '/')).length, ?_⟩
  have hrep : l.reverse.takeWhile (fun c => c = '/') =
      List.replicate (l.reverse.takeWhile (fun c => c = '/')).length '/' := by
    apply List.eq_replicate_of_mem
    intro b hb
    have := List.mem_takeWhile_imp hb
    exact of_decide_eq_true this
  calc l = l.reverse.reverse := (List.reverse_reverse l).symm
    _ = (l.reverse.takeWhile (fun c => c = '/') ++ l.reverse.dropWhile (fun c => c = '/')).reverse := by
        rw [List.takeWhile_append_dropWhile]
    _ = dropTrailingSlashes l ++ (l.reverse.takeWhile (fun c => c = '/')).reverse := by
        rw [List.reverse_append, dropTrailingSlashes]
    _ = dropTrailingSlashes l ++ List.replicate (l.reverse.takeWhile (fun c => c = '/')).length '/' := by
        rw [hrep, List.reverse_replicate, ← hrep]
        rw [hrep, List.length_replicate]

lemma mem_dropTrailingSlashes {c : Char} {l : List Char}
    (h : c ∈ dropTrailingSlashes l) : c ∈ l := by
  rcases dropTrailingSlashes_decomp l with ⟨k, hk⟩
  rw [hk]
  exact List.mem_append_left _ h

lemma dropTrailingSlashes_getLast? {l : List Char} {c : Char}
    (h : (dropTrailingSlashes l).getLast? = some c) : c ≠ '/' := by
  rw [dropTrailingSlashes, List.getLast?_reverse] at h
  have : ∀ m : List Char, (m.dropWhile (fun c => c = '/')).head? = some c → c ≠ '/' := by
    intro m
    induction m with
    | nil => intro h'; simp at h'
    | cons a t ih =>
      intro h'
      rw [List.dropWhile_cons] at h'
      by_cases ha : a = '/'
      · rw [if_pos (by simp [ha])] at h'
        exact ih h'
      · rw [if_neg (by simp [ha])] at h'
        simp at h'
        rw [← h']
        exact ha
  exact this l.reverse h

lemma dropTrailingSlashes_eq_self {l : List Char} (h : l.getLast? ≠ some '/') :
    dropTrailingSlashes l = l := by
  rw [dropTrailingSlashes]
  rcases hr : l.reverse with _ | ⟨c, r⟩
  · simpa using congrArg List.reverse hr
  · have hc : c ≠ '/' := by
      intro hc
      apply h
      rw [← List.head?_reverse, hr, hc]
      rfl
    rw [List.dropWhile_cons, if_neg (by simp [hc]), ← hr, List.reverse_reverse]

lemma dropTrailingSlashes_append_slash (z : List Char) :
    dropTrailingSlashes (z ++ ['/']) = dropTrailingSlashes z := by
  rw [dropTrailingSlashes, dropTrailingSlashes, List.reverse_append]
  simp only [List.reverse_cons, List.reverse_nil, List.nil_append, List.singleton_append,
    List.dropWhile_cons]
  rw [if_pos (by simp)]

lemma okPairs_last_slash_decomp {x : List Char} (hok : okPairs x = true)
    (hl : x.getLast? = some '/') : x = dropTrailingSlashes x ++ ['/'] := by
  rcases dropTrailingSlashes_decomp x with ⟨k, hk⟩
  match k, hk with
  | 0, hk =>
    rw [List.replicate, List.append_nil] at hk
    rw [hk] at hl
    exact absurd rfl (dropTrailingSlashes_getLast? hl)
  | 1, hk =>
    simpa using hk
  | (n + 2), hk =>
    exfalso
    have : x = dropTrailingSlashes x ++ '/' :: '/' :: List.replicate n '/' := by
      simpa [List.replicate] using hk
    exact no_double_of_okPairs hok _ _ this

lemma backslash_not_mem_collapse_map (l : List Char) :
    '\\' ∉ collapseSlashes (l.map slashifyChar) := fun h =>
  backslash_not_mem_map_slashify l (mem_collapseSlashes h)

lemma normalizeL_no_backslash (l : List Char) : '\\' ∉ normalizeL l := by
  rw [normalizeL, stripTrailing]
  split
  · intro h
    exact backslash_not_mem_collapse_map l (mem_dropTrailingSlashes h)
  · exact backslash_not_mem_collapse_map l

lemma okPairs_normalizeL (l : List Char) : okPairs (normalizeL l) = true := by
  rw [normalizeL, stripTrailing]
  split
  · rcases dropTrailingSlashes_decomp (collapseSlashes (l.map slashifyChar)) with ⟨k, hk⟩
    apply okPairs_append_left (r := List.replicate k '/')
    rw [← hk]
    exact okPairs_collapseSlashes _
  · exact okPairs_collapseSlashes _

lemma normalizeL_getLast?_slash {l : List Char}
    (h : (normalizeL l).getLast? = some '/') : normalizeL l = ['/'] := by
  rw [normalizeL, stripTrailing] at h ⊢
  by_cases hcond : 1 < (collapseSlashes (l.map slashifyChar)).length ∧
      (collapseSlashes (l.map slashifyChar)).getLast? = some '/'
  · rw [if_pos hcond] at h
    exact absurd rfl (dropTrailingSlashes_getLast? h)
  · rw [if_neg hcond] at h ⊢
    have hne : collapseSlashes (l.map slashifyChar) ≠ [] := by
      intro hnil
      rw [hnil] at h
      simp at h
    have hlen : 0 < (collapseSlashes (l.map slashifyChar)).length := List.length_pos.2 hne
    have hle : ¬ 1 < (collapseSlashes (l.map slashifyChar)).length := by
      intro hgt
      exact hcond ⟨hgt, h⟩
    have h1 : (collapseSlashes (l.map slashifyChar)).length = 1 := by omega
    rcases List.length_eq_one.1 h1 with ⟨a, ha⟩
    rw [ha] at h ⊢
    simp at h
    rw [h]

lemma normalizeL_idem (l : List Char) : normalizeL (normalizeL l) = normalizeL l := by
  conv_lhs => rw [normalizeL]
  rw [map_slashify_of_not_mem _ (normalizeL_no_backslash l)]
  rw [collapseSlashes_of_okPairs (okPairs_normalizeL l)]
  rw [stripTrailing]
  by_cases hlast : (normalizeL l).getLast? = some '/'
  · have := normalizeL_getLast?_slash hlast
    rw [this]
    rfl
  · rw [if_neg (by intro hc; exact hlast hc.2)]

lemma normalizeL_ne_nil {l : List Char} (h : l ≠ []) : normalizeL l ≠ [] := by
  have hmapne : l.map slashifyChar ≠ [] := by
    intro hc
    exact h (List.map_eq_nil_iff.1 hc)
  have hcol : collapseSlashes (l.map slashifyChar) ≠ [] := collapseSlashes_ne_nil hmapne
  rw [normalizeL, stripTrailing]
  split
  · next hcond =>
    have hdec := okPairs_last_slash_decomp (okPairs_collapseSlashes (l.map slashifyChar)) hcond.2
    intro hnil
    rw [hnil] at hdec
    rw [hdec] at hcond
    simp at hcond
  · exact hcol

/-! ### C7: normalization invariants. -/

/-- C7 counterexample: the claim requires no trailing `/` in `normalize_path p` unless
`p` itself is the root `"/"`; but `normalize_path "//"` is `"/"`, which ends in `/`,
while `"//" ≠ "/"`. -/
theorem C7_trailing_unless_root_counterexample :
    normalize_path ("//") = "/" ∧ ("//" : String) ≠ "/" ∧
    (normalize_path ("//")).data.getLast? = some '/' := by
  refine ⟨?_, by decide, ?_⟩
  · rfl
  · rfl

/-- C7 (amended): for every path `p`, `normalize_path` is idempotent, its output
contains no backslash and no `//` substring, and a trailing `/` occurs only when the
output itself is the root `"/"` (rather than: only when the input is `"/"`). -/
theorem C7_normalize_idempotent_and_clean (p : String) :
    normalize_path (normalize_path p) = normalize_path p ∧
    '\\' ∉ (normalize_path p).data ∧
    (∀ u v : List Char, (normalize_path p).data ≠ u ++ '/' :: '/' :: v) ∧
    ((normalize_path p).data.getLast? = some '/' → normalize_path p = "/") := by
  refine ⟨?_, normalizeL_no_backslash p.data,
    no_double_of_okPairs (okPairs_normalizeL p.data), ?_⟩
  · exact congrArg String.mk (normalizeL_idem p.data)
  · intro h
    exact congrArg String.mk (normalizeL_getLast?_slash h)

/-- C7 witness: the amended theorem applied at the concrete path `"a//b\\c/"`, with the
trailing-slash implication discharged at `"//"`. -/
theorem C7_normalize_witness :
    (normalize_path (normalize_path ("a//b\\c/")) = normalize_path ("a//b\\c/") ∧
      '\\' ∉ (normalize_path ("a//b\\c/")).data ∧
      (∀ u v : List Char, (normalize_path ("a//b\\c/")).data ≠ u ++ '/' :: '/' :: v) ∧
      ((normalize_path ("a//b\\c/")).data.getLast? = some '/' →
        normalize_path ("a//b\\c/") = "/")) ∧
    normalize_path ("a//b\\c/") = "a/b/c" ∧
    ((normalize_path ("//")).data.getLast? = some '/' → normalize_path ("//") = "/") ∧
    normalize_path ("//") = "/" :=
  ⟨C7_normalize_idempotent_and_clean ("a//b\\c/"), by rfl,
    (C7_normalize_idempotent_and_clean ("//")).2.2.2,
    (C7_normalize_idempotent_and_clean ("//")).2.2.2 (by rfl)⟩

/-! ### Lemmas about joining: how `normalizeL` acts across the `/` seam. -/

lemma slashifyChar_slash : slashifyChar '/' = '/' := by decide

lemma collapseSlashes_nil : collapseSlashes [] = [] := rfl

lemma collapseSlashes_singleton (c : Char) : collapseSlashes [c] = [c] := rfl

lemma collapseSlashes_cons_cons (a b : Char) (t : List Char) :
    collapseSlashes (a :: b :: t) =
      if a = '/' ∧ b = '/' then collapseSlashes (b :: t) else a :: collapseSlashes (b :: t) :=
  rfl

lemma collapseSlashes_append_of_getLast {x : List Char} (y : List Char)
    (h : x.getLast? ≠ some '/') :
    collapseSlashes (x ++ y) = collapseSlashes x ++ collapseSlashes y := by
  induction x with
  | nil => simp [collapseSlashes_nil]
  | cons a t ih =>
    cases t with
    | nil =>
      have ha : a ≠ '/' := by
        intro hc
        exact h (by rw [hc]; rfl)
      cases y with
      | nil => simp [collapseSlashes_nil]
      | cons c ys =>
        rw [List.singleton_append, collapseSlashes_cons_cons, if_neg (fun hx => ha hx.1),
          collapseSlashes_singleton, List.singleton_append]
    | cons b t' =>
      have h' : (b :: t').getLast? ≠ some '/' := by
        rw [← List.getLast?_cons_cons (a := a)]
        exact h
      rw [List.cons_append, List.cons_append]
      by_cases hab : a = '/' ∧ b = '/'
      · rw [collapseSlashes_cons_cons, if_pos hab, collapseSlashes_cons_cons, if_pos hab,
          ← List.cons_append]
        exact ih h'
      · rw [collapseSlashes_cons_cons, if_neg hab, collapseSlashes_cons_cons, if_neg hab,
          ← List.cons_append, ih h']
        rfl

lemma collapseSlashes_slash_slash (t : List Char) :
    collapseSlashes ('/' :: '/' :: t) = collapseSlashes ('/' :: t) := by
  rw [collapseSlashes, if_pos ⟨rfl, rfl⟩]

lemma collapseSlashes_replicate_append (k : Nat) (v : List Char) :
    collapseSlashes (List.replicate k '/' ++ '/' :: v) = collapseSlashes ('/' :: v) := by
  induction k with
  | zero => simp
  | succ n ih =>
    rw [List.replicate_succ, List.cons_append]
    cases n with
    | zero => simpa using collapseSlashes_slash_slash v
    | succ m =>
      rw [List.replicate_succ, List.cons_append, collapseSlashes_slash_slash,
        ← List.cons_append, ← List.replicate_succ]
      exact ih

lemma collapseSlashes_boundary (x v : List Char) :
    collapseSlashes (x ++ '/' :: v) =
      collapseSlashes (dropTrailingSlashes x) ++ collapseSlashes ('/' :: v) := by
  rcases dropTrailingSlashes_decomp x with ⟨k, hk⟩
  have hlast : (dropTrailingSlashes x).getLast? ≠ some '/' :=
    fun hc => (dropTrailingSlashes_getLast? hc) rfl
  conv_lhs => rw [hk]
  rw [List.append_assoc, collapseSlashes_append_of_getLast _ hlast,
    collapseSlashes_replicate_append]

lemma eq_root_of_suffix {x : List Char} (h : x <:+ ['/']) (hne : x ≠ []) : x = ['/'] := by
  rcases h with ⟨pre, hp⟩
  cases pre with
  | nil => simpa using hp
  | cons a t =>
    exfalso
    have hlen := congrArg List.length hp
    simp only [List.length_append, List.length_cons, List.length_singleton,
      List.length_nil] at hlen
    have : x.length = 0 := by omega
    exact hne (List.length_eq_zero.1 this)

lemma normalizeL_suffix_append (u v : List Char)
    (h : normalizeL ('/' :: v) ≠ ['/']) :
    normalizeL ('/' :: v) <:+ normalizeL (u ++ '/' :: v) := by
  have hmap : (u ++ '/' :: v).map slashifyChar =
      u.map slashifyChar ++ '/' :: v.map slashifyChar := by
    rw [List.map_append, List.map_cons, slashifyChar_slash]
  set A := collapseSlashes (dropTrailingSlashes (u.map slashifyChar)) with hA
  set cv := collapseSlashes ('/' :: v.map slashifyChar) with hcv
  have hsplit : collapseSlashes ((u ++ '/' :: v).map slashifyChar) = A ++ cv := by
    rw [hmap, collapseSlashes_boundary]
  have hcvhead : cv.head? = some '/' := by
    rw [hcv, collapseSlashes_head?]
    rfl
  have hcvne : cv ≠ [] := by
    intro hc
    rw [hc] at hcvhead
    simp at hcvhead
  have hok : okPairs cv = true := by rw [hcv]; exact okPairs_collapseSlashes _
  have hnorm_cv : normalizeL ('/' :: v) = stripTrailing cv := by
    rw [normalizeL, List.map_cons, slashifyChar_slash, hcv]
  have hnorm_whole : normalizeL (u ++ '/' :: v) = stripTrailing (A ++ cv) := by
    rw [normalizeL, hsplit]
  rw [hnorm_cv, hnorm_whole]
  by_cases hlast : cv.getLast? = some '/'
  · have hdec := okPairs_last_slash_decomp hok hlast
    have hdtsne : dropTrailingSlashes cv ≠ [] := by
      intro hc
      rw [hc, List.nil_append] at hdec
      apply h
      rw [hnorm_cv, hdec]
      rfl
    have hdtslast : (dropTrailingSlashes cv).getLast? ≠ some '/' :=
      fun hc => (dropTrailingSlashes_getLast? hc) rfl
    have hdtslen : 0 < (dropTrailingSlashes cv).length := List.length_pos.2 hdtsne
    have hlen2 : 1 < cv.length := by
      rw [hdec, List.length_append, List.length_singleton]
      omega
    have hstrip_cv : stripTrailing cv = dropTrailingSlashes cv := by
      rw [stripTrailing, if_pos ⟨hlen2, hlast⟩]
    have hwlast : (A ++ cv).getLast? = some '/' := by
      rw [List.getLast?_append_of_ne_nil _ hcvne]
      exact hlast
    have hwlen : 1 < (A ++ cv).length := by
      rw [List.length_append]
      omega
    have hstrip_whole : stripTrailing (A ++ cv) = A ++ dropTrailingSlashes cv := by
      rw [stripTrailing, if_pos ⟨hwlen, hwlast⟩]
      conv_lhs => rw [hdec, ← List.append_assoc, dropTrailingSlashes_append_slash]
      apply dropTrailingSlashes_eq_self
      rw [List.getLast?_append_of_ne_nil _ hdtsne]
      exact hdtslast
    rw [hstrip_cv, hstrip_whole]
    exact List.suffix_append A _
  · have hstrip_cv : stripTrailing cv = cv := by
      rw [stripTrailing, if_neg (fun hc => hlast hc.2)]
    have hwlast : (A ++ cv).getLast? ≠ some '/' := by
      rw [List.getLast?_append_of_ne_nil _ hcvne]
      exact hlast
    have hstrip_whole : stripTrailing (A ++ cv) = A ++ cv := by
      rw [stripTrailing, if_neg (fun hc => hwlast hc.2)]
    rw [hstrip_cv, hstrip_whole]
    exact List.suffix_append A cv

lemma mem_takeWhile_slash {l : List Char} {b : Char}
    (hb : b ∈ l.takeWhile (fun c => c = '/')) : b = '/' := by
  induction l with
  | nil => simp at hb
  | cons a t ih =>
    rw [List.takeWhile_cons] at hb
    by_cases ha : a = '/'
    · rw [if_pos (by simp [ha])] at hb
      rcases List.mem_cons.1 hb with h | h
      · rw [h, ha]
      · exact ih h
    · rw [if_neg (by simp [ha])] at hb
      simp at hb

lemma takeWhile_slash_replicate (l : List Char) :
    l.takeWhile (fun c => c = '/') =
      List.replicate (l.takeWhile (fun c => c = '/')).length '/' := by
  apply List.eq_replicate_of_mem
  intro b hb
  exact mem_takeWhile_slash hb

lemma normalizeL_lstrip_suffix (part : List Char) (hne : part ≠ []) :
    normalizeL part <:+ normalizeL ('/' :: dropLeadingSlashes part) := by
  have hdecomp : part = part.takeWhile (fun c => c = '/') ++ dropLeadingSlashes part := by
    rw [dropLeadingSlashes, List.takeWhile_append_dropWhile]
  set k := (part.takeWhile (fun c => c = '/')).length with hkdef
  set p' := dropLeadingSlashes part with hp'def
  rcases Nat.eq_zero_or_pos k with hk0 | hkpos
  · have htw : part.takeWhile (fun c => c = '/') = [] := by
      rw [takeWhile_slash_replicate, ← hkdef, hk0]
      rfl
    have hpart : part = p' := by
      conv_lhs => rw [hdecomp]
      rw [htw, List.nil_append]
    have hmapne : p'.map slashifyChar ≠ [] := by
      intro hc
      exact hne (by rw [hpart]; exact List.map_eq_nil_iff.1 hc)
    cases hh : (p'.map slashifyChar).head? with
    | none =>
      exfalso
      rcases List.exists_cons_of_ne_nil hmapne with ⟨x, xs, hx⟩
      rw [hx] at hh
      simp at hh
    | some c =>
      obtain ⟨xs, hx⟩ : ∃ xs, p'.map slashifyChar = c :: xs := by
        rcases List.exists_cons_of_ne_nil hmapne with ⟨x, xs, hx⟩
        rw [hx] at hh
        simp at hh
        exact ⟨xs, by rw [hx, hh]⟩
      by_cases hc : c = '/'
      · subst hc
        have heq : normalizeL ('/' :: p') = normalizeL p' := by
          rw [normalizeL, normalizeL, List.map_cons, slashifyChar_slash, hx,
            collapseSlashes_slash_slash]
        rw [hpart, heq]
      · have hcol : collapseSlashes ('/' :: p'.map slashifyChar) =
            '/' :: collapseSlashes (p'.map slashifyChar) := by
          rw [hx, collapseSlashes_cons_cons, if_neg (fun hcc => hc hcc.2)]
        set cp := collapseSlashes (p'.map slashifyChar) with hcp
        have hcpne : cp ≠ [] := by rw [hcp]; exact collapseSlashes_ne_nil hmapne
        have hok : okPairs cp = true := by rw [hcp]; exact okPairs_collapseSlashes _
        have hcphead : cp.head? = some c := by
          rw [hcp, collapseSlashes_head?, hx]
          rfl
        have hnorm1 : normalizeL p' = stripTrailing cp := by rw [normalizeL, hcp]
        have hnorm2 : normalizeL ('/' :: p') = stripTrailing ('/' :: cp) := by
          rw [normalizeL, List.map_cons, slashifyChar_slash, hcol]
        rw [hpart, hnorm1, hnorm2]
        by_cases hlast : cp.getLast? = some '/'
        · have hdec := okPairs_last_slash_decomp hok hlast
          have hdtsne : dropTrailingSlashes cp ≠ [] := by
            intro hnil
            rw [hnil, List.nil_append] at hdec
            rw [hdec] at hcphead
            simp at hcphead
            exact hc hcphead.symm
          have hdtslast : (dropTrailingSlashes cp).getLast? ≠ some '/' :=
            fun hcg => (dropTrailingSlashes_getLast? hcg) rfl
          have hdtslen : 0 < (dropTrailingSlashes cp).length := List.length_pos.2 hdtsne
          have hlen2 : 1 < cp.length := by
            rw [hdec, List.length_append, List.length_singleton]
            omega
          have hstrip1 : stripTrailing cp = dropTrailingSlashes cp := by
            rw [stripTrailing, if_pos ⟨hlen2, hlast⟩]
          have hclast : ('/' :: cp).getLast? = some '/' := by
            rw [getLast?_cons_ne_nil hcpne]
            exact hlast
          have hclen : 1 < ('/' :: cp).length := by
            rw [List.length_cons]
            omega
          have hstrip2 : stripTrailing ('/' :: cp) = '/' :: dropTrailingSlashes cp := by
            rw [stripTrailing, if_pos ⟨hclen, hclast⟩]
            have hz : ('/' :: cp) = ('/' :: dropTrailingSlashes cp) ++ ['/'] := by
              conv_lhs => rw [hdec]
              rfl
            rw [hz, dropTrailingSlashes_append_slash]
            apply dropTrailingSlashes_eq_self
            rw [getLast?_cons_ne_nil hdtsne]
            exact hdtslast
          rw [hstrip1, hstrip2]
          exact List.suffix_cons '/' _
        · have hstrip1 : stripTrailing cp = cp := by
            rw [stripTrailing, if_neg (fun hcc => hlast hcc.2)]
          have hclast : ('/' :: cp).getLast? ≠ some '/' := by
            rw [getLast?_cons_ne_nil hcpne]
            exact hlast
          have hstrip2 : stripTrailing ('/' :: cp) = '/' :: cp := by
            rw [stripTrailing, if_neg (fun hcc => hclast hcc.2)]
          rw [hstrip1, hstrip2]
          exact List.suffix_cons '/' cp
  · obtain ⟨m, hm⟩ : ∃ m, k = m + 1 := ⟨k - 1, by omega⟩
    have heq : normalizeL part = normalizeL ('/' :: p') := by
      rw [normalizeL, normalizeL]
      congr 1
      conv_lhs => rw [hdecomp]
      rw [List.map_append, takeWhile_slash_replicate, ← hkdef, List.map_replicate,
        slashifyChar_slash, hm, List.replicate_succ', List.append_assoc,
        List.singleton_append, collapseSlashes_replicate_append, List.map_cons,
        slashifyChar_slash]
    rw [heq]

lemma join_path_data (base part : String)
    (hp : dropLeadingSlashes part.data ≠ []) :
    (_join_path base part).data =
      dropTrailingSlashes base.data ++ '/' :: dropLeadingSlashes part.data := by
  have h1 : _join_path base part =
      (if dropTrailingSlashes base.data = [] then
        (if dropLeadingSlashes part.data = [] then ("/")
         else ⟨'/' :: dropLeadingSlashes part.data⟩)
       else (if dropLeadingSlashes part.data = [] then ⟨dropTrailingSlashes base.data⟩
         else ⟨dropTrailingSlashes base.data ++ '/' :: dropLeadingSlashes part.data⟩)) := rfl
  by_cases hb : dropTrailingSlashes base.data = []
  · rw [h1, if_pos hb, if_neg hp, hb]
    rfl
  · rw [h1, if_neg hb, if_neg hp]

lemma normalize_path_all_slashes (part : String) (hne : part.data ≠ [])
    (hp : dropLeadingSlashes part.data = []) : normalize_path part = "/" := by
  have hp' : part.data.dropWhile (fun c => c = '/') = [] := hp
  have hdecomp : part.data = part.data.takeWhile (fun c => c = '/') := by
    conv_lhs => rw [← List.takeWhile_append_dropWhile (p := fun c => decide (c = '/'))
      (l := part.data)]
    rw [hp', List.append_nil]
  have hrep := takeWhile_slash_replicate part.data
  set n := (part.data.takeWhile (fun c => c = '/')).length with hn
  have hnpos : 0 < n := by
    rcases Nat.eq_zero_or_pos n with h0 | hp2
    · exfalso
      apply hne
      rw [hdecomp, hrep, h0]
      rfl
    · exact hp2
  obtain ⟨m, hm⟩ : ∃ m, n = m + 1 := ⟨n - 1, by omega⟩
  have hfin : normalizeL part.data = ['/'] := by
    rw [hdecomp, hrep, hm, normalizeL, List.map_replicate, slashifyChar_slash,
      List.replicate_succ', collapseSlashes_replicate_append]
    rfl
  exact congrArg String.mk hfin

/-! ### C8: the join contract. -/

/-- C8 counterexample: `_join_path` does not normalize its arguments, so the claimed
result `normalize("a//b") ++ "/" ++ "c" = "a/b/c"` differs from the actual
`"a//b/c"`; and for the non-empty part `"/"` the result `join("a","/") = "a"` does not
end with `normalize("/") = "/"`. -/
theorem C8_join_path_counterexample :
    _join_path ("a//b") "c" = "a//b/c" ∧ normalize_path ("a//b") = "a/b" ∧
    ("a//b/c" : String) ≠ "a/b/c" ∧
    _join_path ("a") "/" = "a" ∧ normalize_path ("/") = "/" ∧
    ¬ (normalize_path ("/")).data <:+ (normalize_path (_join_path ("a") "/")).data := by
  refine ⟨rfl, rfl, by decide, rfl, rfl, by decide⟩

/-- C8 (amended): `_join_path` strips trailing slashes from `base` and leading slashes
from `part` (without normalizing either) and concatenates with a single `/`; an empty
stripped base yields a `/`-prefixed result; and for every `part` that is non-empty and
does not normalize to the bare root `"/"`, the normalized result ends with
`normalize_path part`. -/
theorem C8_join_path_amended (base part : String) (h1 : part ≠ "")
    (h2 : normalize_path part ≠ "/") :
    ((_join_path base part).data =
      dropTrailingSlashes base.data ++ '/' :: dropLeadingSlashes part.data) ∧
    (dropTrailingSlashes base.data = [] →
      (_join_path base part).data = '/' :: dropLeadingSlashes part.data) ∧
    (normalize_path part).data <:+ (normalize_path (_join_path base part)).data := by
  have hdne : part.data ≠ [] := by
    intro hc
    apply h1
    have hpp : part = ⟨part.data⟩ := rfl
    rw [hpp, hc]
  have hp : dropLeadingSlashes part.data ≠ [] := by
    intro hc
    exact h2 (normalize_path_all_slashes part hdne hc)
  have hj := join_path_data base part hp
  refine ⟨hj, ?_, ?_⟩
  · intro hb
    rw [hj, hb, List.nil_append]
  · have hm2 := normalizeL_lstrip_suffix part.data hdne
    have hroot : normalizeL ('/' :: dropLeadingSlashes part.data) ≠ ['/'] := by
      intro hr
      rw [hr] at hm2
      have hnp : normalizeL part.data ≠ [] := normalizeL_ne_nil hdne
      exact h2 (congrArg String.mk (eq_root_of_suffix hm2 hnp))
    have hm1 := normalizeL_suffix_append (dropTrailingSlashes base.data)
      (dropLeadingSlashes part.data) hroot
    have hwhole : (normalize_path (_join_path base part)).data =
        normalizeL (dropTrailingSlashes base.data ++ '/' :: dropLeadingSlashes part.data) := by
      show normalizeL (_join_path base part).data = _
      rw [hj]
    rw [hwhole]
    exact hm2.trans hm1

/-- C8 witness: the amended theorem applied at `base = "a//"`, `part = "b/c"`, whose
hypotheses hold by computation, together with the evaluated join. -/
theorem C8_join_path_witness :
    (("b/c" : String) ≠ "" ∧ normalize_path ("b/c") ≠ "/") ∧
    ((_join_path ("a//") "b/c").data =
      dropTrailingSlashes ("a//").data ++ '/' :: dropLeadingSlashes ("b/c").data) ∧
    (normalize_path ("b/c")).data <:+ (normalize_path (_join_path ("a//") "b/c")).data ∧
    _join_path ("a//") "b/c" = "a/b/c" := by
  have h := C8_join_path_amended ("a//") "b/c" (by decide) (by decide)
  exact ⟨⟨by decide, by decide⟩, h.1, h.2.2, rfl⟩

/-! ### Worker handler lemmas and C1, C9. -/

lemma isAckNack_publish (s : Send) : isAckNack (BOp.publish s) = false := rfl

lemma filter_isAckNack_map_publish (idx : String) (l : List (String × RVal)) :
    (l.map (fun av => BOp.publish (mkSend idx av))).filter isAckNack = [] := by
  induction l with
  | nil => rfl
  | cons a t ih => simp [List.filter_cons, isAckNack_publish, ih]

lemma ackNacks_processMessage_some (env : RemoteEnv) (cfg : IOParams) (e : Envelope) :
    ackNacks (processMessage env cfg (some e)) = [BOp.ack] := by
  show ((((dispatch env cfg e).1.pubs ++
      [((dispatch env cfg e).2, (dispatch env cfg e).1.result)]).map
      (fun av => BOp.publish (mkSend cfg.index av))) ++ [BOp.ack]).filter isAckNack = [BOp.ack]
  rw [List.filter_append, filter_isAckNack_map_publish]
  rfl

/-- C1: for every broker delivery handled by the worker's `process_message` — whether
the body parses or not, the action is known or unknown, and the command succeeds or
fails — exactly one of `ack` or `nack(requeue=false)` is emitted before return. -/
theorem C1_process_message_exactly_one_ack_nack (env : RemoteEnv) (cfg : IOParams)
    (body : Option Envelope) :
    ackNacks (processMessage env cfg body) = [BOp.ack] ∨
    ackNacks (processMessage env cfg body) = [BOp.nack false] := by
  cases body with
  | none => exact Or.inr rfl
  | some e => exact Or.inl (ackNacks_processMessage_some env cfg e)

lemma filterMap_publish_comp (idx : String) (l : List (String × RVal)) :
    (l.map (fun av => BOp.publish (mkSend idx av))).filterMap
      (fun op => match op with | BOp.publish s => some s | _ => none) =
      l.map (mkSend idx) := by
  induction l with
  | nil => rfl
  | cons a t ih => simp [ih]

lemma sendsOf_processMessage_some (env : RemoteEnv) (cfg : IOParams) (e : Envelope) :
    sendsOf (processMessage env cfg (some e)) =
      ((dispatch env cfg e).1.pubs ++
        [((dispatch env cfg e).2, (dispatch env cfg e).1.result)]).map (mkSend cfg.index) := by
  show ((((dispatch env cfg e).1.pubs ++
      [((dispatch env cfg e).2, (dispatch env cfg e).1.result)]).map
      (fun av => BOp.publish (mkSend cfg.index av))) ++ [BOp.ack]).filterMap
      (fun op => match op with | BOp.publish s => some s | _ => none) = _
  rw [List.filterMap_append, filterMap_publish_comp]
  simp

/-- C9: an inbound envelope whose action is outside the known command set is answered
with a single reply whose action is ERROR carrying the error reason on the worker's
outbound queue, the delivery is acked, and no remote-session operation is invoked. -/
theorem C9_unknown_action_error_reply (env : RemoteEnv) (cfg : IOParams) (e : Envelope)
    (h : ∀ a, e.action = some a → a ∉ knownActions) :
    (∃ s : Send, sendsOf (processMessage env cfg (some e)) = [s] ∧
      s.action = ActionTable.ERROR ∧
      s.queue = "recv_queue_index_" ++ cfg.index ∧
      s.value = .text ("Comando desconhecido: " ++ actionRepr e.action)) ∧
    (processMessage env cfg (some e)).remote = [] ∧
    ackNacks (processMessage env cfg (some e)) = [BOp.ack] := by
  have hk : ∀ s : String, s ∈ knownActions → e.action ≠ some s := by
    intro s hs hc
    exact h s hc hs
  have hd : dispatch env cfg e =
      (HandlerOut.mk [] [] []
        (.text ("Comando desconhecido: " ++ actionRepr e.action)), ActionTable.ERROR) := by
    unfold dispatch
    rw [if_neg (hk _ (by decide)), if_neg (hk _ (by decide)), if_neg (hk _ (by decide)),
      if_neg (hk _ (by decide)), if_neg (hk _ (by decide)), if_neg (hk _ (by decide)),
      if_neg (hk _ (by decide)), if_neg (hk _ (by decide))]
  refine ⟨⟨mkSend cfg.index (ActionTable.ERROR,
      .text ("Comando desconhecido: " ++ actionRepr e.action)), ?_, rfl, rfl, rfl⟩, ?_, ?_⟩
  · rw [sendsOf_processMessage_some, hd]
    rfl
  · show (dispatch env cfg e).1.rops = []
    rw [hd]
  · exact ackNacks_processMessage_some env cfg e

/-- C9 witness: the theorem applied to the envelope `{"action": "WAT"}` with the
sample worker; the reply is a single ERROR publication on the outbound queue, the
delivery is acked, and no remote operation runs. -/
theorem C9_unknown_action_witness :
    ("WAT" : String) ∉ knownActions ∧
    (∃ s : Send, sendsOf (processMessage sampleEnv sampleCfg (some ⟨some ("WAT"), "", ""⟩)) = [s] ∧
      s.action = ActionTable.ERROR ∧
      s.queue = "recv_queue_index_" ++ sampleCfg.index ∧
      s.value = .text ("Comando desconhecido: " ++
        actionRepr (Envelope.mk (some ("WAT")) "" "").action)) ∧
    (processMessage sampleEnv sampleCfg (some ⟨some ("WAT"), "", ""⟩)).remote = [] ∧
    ackNacks (processMessage sampleEnv sampleCfg (some ⟨some ("WAT"), "", ""⟩)) = [BOp.ack] := by
  have h := C9_unknown_action_error_reply sampleEnv sampleCfg ⟨some ("WAT"), "", ""⟩ (by
    intro a ha
    simp only [Option.some.injEq] at ha
    rw [← ha]
    decide)
  exact ⟨by decide, h.1, h.2.1, h.2.2⟩

/-! ### C3: progress events of the bulk-upload handlers. -/

lemma truthyAdd_eq (b : Nat) (sz : Option Nat) : truthyAdd b sz = b + sz.getD 0 := by
  cases sz with
  | none => simp [truthyAdd]
  | some s =>
    by_cases hs : s = 0
    · simp [truthyAdd, hs]
    · simp [truthyAdd, hs]

lemma foldl_truthyAdd (l : List (String × Option Nat)) : ∀ b : Nat,
    l.foldl (fun acc f => truthyAdd acc f.2) b = b + (l.map (fun f => f.2.getD 0)).sum := by
  induction l with
  | nil => intro b; simp
  | cons a t ih =>
    intro b
    rw [List.foldl_cons, ih, truthyAdd_eq, List.map_cons, List.sum_cons]
    omega

lemma totalBytesOf_eq_sum (l : List (String × Option Nat)) :
    totalBytesOf l = (l.map (fun f => f.2.getD 0)).sum := by
  rw [totalBytesOf, foldl_truthyAdd]
  exact Nat.zero_add _

lemma progressEvents_append (l1 l2 : List (String × RVal)) :
    progressEvents (l1 ++ l2) = progressEvents l1 ++ progressEvents l2 := by
  rw [progressEvents, progressEvents, progressEvents, List.filterMap_append]

lemma progressEvents_progress_single (p : ProgressPayload) :
    progressEvents [(ActionTable.PROGRESS_SEND_FILE, RVal.progress p)] = [p] := by
  simp [progressEvents, ActionTable.PROGRESS_SEND_FILE]

lemma progressEvents_cons_status (a s : String) (l : List (String × RVal)) :
    progressEvents ((a, RVal.status s) :: l) = progressEvents l := by
  simp [progressEvents]

lemma progressEvents_concat_uploadRes (a : String) (b : Bool) (errs : List String)
    (l : List (String × RVal)) :
    progressEvents (l ++ [(a, RVal.uploadRes b errs)]) = progressEvents l := by
  rw [progressEvents_append]
  simp [progressEvents]

lemma withFtp_pubs {c : Bool} (h : c = true) (f : Unit → HandlerOut) :
    (withFtp c f).pubs = (f ()).pubs := by
  subst h
  rfl

lemma dirStep_pubs (upOk : String → Bool) (localDir remoteDir : String) (tb tf : Nat)
    (st : DirLoopSt) (f : String × Option Nat) :
    (dirStep upOk localDir remoteDir tb tf st f).pubs = st.pubs ++
      [(ActionTable.PROGRESS_SEND_FILE, RVal.progress
        ⟨f.1, some (st.done + 1), some tf, some (truthyAdd st.bytes f.2), some tb,
          if 0 < tb then truthyAdd st.bytes f.2 * 100 / tb
          else if 0 < tf then (st.done + 1) * 100 / tf else 100⟩)] := rfl

lemma dirLoop_done_bytes (upOk : String → Bool) (localDir remoteDir : String)
    (tb tf : Nat) :
    ∀ (files : List (String × Option Nat)) (st : DirLoopSt),
      (files.foldl (dirStep upOk localDir remoteDir tb tf) st).done =
        st.done + files.length ∧
      (files.foldl (dirStep upOk localDir remoteDir tb tf) st).bytes =
        st.bytes + (files.map (fun f => f.2.getD 0)).sum := by
  intro files
  induction files with
  | nil => intro st; simp
  | cons f t ih =>
    intro st
    rw [List.foldl_cons]
    rcases ih (dirStep upOk localDir remoteDir tb tf st f) with ⟨h1, h2⟩
    have hd : (dirStep upOk localDir remoteDir tb tf st f).done = st.done + 1 := rfl
    have hb : (dirStep upOk localDir remoteDir tb tf st f).bytes =
        truthyAdd st.bytes f.2 := rfl
    constructor
    · rw [h1, hd, List.length_cons]
      omega
    · rw [h2, hb, truthyAdd_eq, List.map_cons, List.sum_cons]
      omega

lemma dirLoop_events_spec (upOk : String → Bool) (localDir remoteDir : String)
    (tb tf : Nat) :
    ∀ (files : List (String × Option Nat)) (st : DirLoopSt),
      (∀ e ∈ progressEvents st.pubs, percentSpec tb tf e) →
      ∀ e ∈ progressEvents (files.foldl (dirStep upOk localDir remoteDir tb tf) st).pubs,
        percentSpec tb tf e := by
  intro files
  induction files with
  | nil => intro st hst; exact hst
  | cons f t ih =>
    intro st hst
    rw [List.foldl_cons]
    apply ih
    intro e he
    rw [dirStep_pubs, progressEvents_append, progressEvents_progress_single] at he
    rcases List.mem_append.1 he with h | h
    · exact hst e h
    · rw [List.mem_singleton.1 h]
      exact ⟨rfl, rfl, rfl⟩

lemma dirLoop_events_length (upOk : String → Bool) (localDir remoteDir : String)
    (tb tf : Nat) :
    ∀ (files : List (String × Option Nat)) (st : DirLoopSt),
      (progressEvents (files.foldl (dirStep upOk localDir remoteDir tb tf) st).pubs).length =
        (progressEvents st.pubs).length + files.length := by
  intro files
  induction files with
  | nil => intro st; simp
  | cons f t ih =>
    intro st
    rw [List.foldl_cons, ih, dirStep_pubs, progressEvents_append,
      progressEvents_progress_single]
    simp only [List.length_append, List.length_cons, List.length_nil]
    omega

lemma dirLoop_events_getLast (upOk : String → Bool) (localDir remoteDir : String)
    (tb tf : Nat) :
    ∀ (files : List (String × Option Nat)) (st : DirLoopSt), files ≠ [] →
      ∃ e : ProgressPayload,
        (progressEvents (files.foldl (dirStep upOk localDir remoteDir tb tf) st).pubs).getLast?
          = some e ∧
        e.percent = (if 0 < tb then
            (files.foldl (dirStep upOk localDir remoteDir tb tf) st).bytes * 100 / tb
          else if 0 < tf then
            (files.foldl (dirStep upOk localDir remoteDir tb tf) st).done * 100 / tf
          else 100) := by
  intro files
  induction files with
  | nil => intro st hne; exact absurd rfl hne
  | cons f t ih =>
    intro st hne
    rw [List.foldl_cons]
    by_cases ht : t = []
    · subst ht
      rw [List.foldl_nil]
      refine ⟨⟨f.1, some (st.done + 1), some tf, some (truthyAdd st.bytes f.2), some tb,
        if 0 < tb then truthyAdd st.bytes f.2 * 100 / tb
        else if 0 < tf then (st.done + 1) * 100 / tf else 100⟩, ?_, ?_⟩
      · rw [dirStep_pubs, progressEvents_append, progressEvents_progress_single,
          List.getLast?_concat]
      · rfl
    · exact ih (dirStep upOk localDir remoteDir tb tf st f) ht

lemma sortFilesByRel_perm (l : List (String × Option Nat)) :
    (sortFilesByRel l).Perm l :=
  List.perm_insertionSort _ l

lemma handleUploadDirectory_pubs (env : RemoteEnv) (cfg : IOParams) (lp rp : String)
    (h : env.connectOk = true) :
    (handleUploadDirectory env cfg lp rp).pubs =
      (ActionTable.START_STREAM_FILE, RVal.status ("start")) ::
        (dirLoopResult env cfg lp rp).pubs ++
        [(ActionTable.FINISH_STREAM_FILE,
          RVal.uploadRes ((dirLoopResult env cfg lp rp).errs.length == 0)
            (dirLoopResult env cfg lp rp).errs)] := by
  show (withFtp env.connectOk _).pubs = _
  rw [withFtp_pubs h]
  rfl

/-- C3 counterexample: a STREAM_DIRECTORY upload of a directory holding one five-byte
file emits exactly one progress event, whose percent is 100 — there is no initial
percent-0 progress event, although the claim requires one for every bulk upload. -/
theorem C3_no_initial_zero_counterexample :
    (progressEvents (handleUploadDirectory sampleEnv sampleCfg ("d") "r").pubs).map
      ProgressPayload.percent = [100] ∧
    ¬ 0 ∈ (progressEvents (handleUploadDirectory sampleEnv sampleCfg ("d") "r").pubs).map
      ProgressPayload.percent := by
  refine ⟨by decide, by decide⟩

/-- C3 (amended): when the session connects, STREAM_FILE emits exactly two progress
events, the initial one with percent 0 and the final one with percent 100;
STREAM_DIRECTORY emits one progress event per walked file (none for an empty
directory, and no initial 0% event in general), the last one having percent 100 when
the directory is non-empty, and every emitted percent is computed over bytes when the
total byte count is positive, else over files processed. -/
theorem C3_progress_events_amended (env : RemoteEnv) (cfg : IOParams) (lp rp : String)
    (h : env.connectOk = true) :
    ((progressEvents (handleUploadFile env cfg lp rp).pubs).map ProgressPayload.percent
      = [0, 100]) ∧
    ((progressEvents (handleUploadDirectory env cfg lp rp).pubs).length
      = env.localWalk.length) ∧
    (env.localWalk ≠ [] →
      ((progressEvents (handleUploadDirectory env cfg lp rp).pubs).getLast?).map
        ProgressPayload.percent = some 100) ∧
    (∀ e ∈ progressEvents (handleUploadDirectory env cfg lp rp).pubs,
      percentSpec (totalBytesOf env.localWalk) env.localWalk.length e) := by
  have hfile : (progressEvents (handleUploadFile env cfg lp rp).pubs).map
      ProgressPayload.percent = [0, 100] := by
    show (progressEvents (withFtp env.connectOk _).pubs).map ProgressPayload.percent = _
    rw [withFtp_pubs h]
    rfl
  have hdirpubs := handleUploadDirectory_pubs env cfg lp rp h
  have hevents : progressEvents (handleUploadDirectory env cfg lp rp).pubs =
      progressEvents (dirLoopResult env cfg lp rp).pubs := by
    rw [hdirpubs]
    simp only [progressEvents_cons_status, progressEvents_concat_uploadRes]
  have hsorted := sortFilesByRel_perm env.localWalk
  have hleneq : (sortFilesByRel env.localWalk).length = env.localWalk.length :=
    hsorted.length_eq
  have hfin := dirLoop_done_bytes env.uploadOk (_join_path cfg.server_side_path lp)
    (_join_path (_join_path cfg.remote_side_path rp) lp)
    (totalBytesOf env.localWalk) env.localWalk.length (sortFilesByRel env.localWalk)
    ⟨0, 0, [], [], []⟩
  have hbytes : (dirLoopResult env cfg lp rp).bytes = totalBytesOf env.localWalk := by
    rw [dirLoopResult]
    rw [hfin.2, totalBytesOf_eq_sum]
    have := (hsorted.map (fun f => f.2.getD 0)).sum_eq
    simpa using this
  have hdone : (dirLoopResult env cfg lp rp).done = env.localWalk.length := by
    rw [dirLoopResult, hfin.1, hleneq]
    simp
  refine ⟨hfile, ?_, ?_, ?_⟩
  · rw [hevents, dirLoopResult, dirLoop_events_length]
    simpa [progressEvents] using hleneq
  · intro hne
    have hsne : sortFilesByRel env.localWalk ≠ [] := by
      intro hc
      apply hne
      have := hsorted.length_eq
      rw [hc] at this
      simpa using (List.length_eq_zero.1 this.symm)
    rcases dirLoop_events_getLast env.uploadOk (_join_path cfg.server_side_path lp)
        (_join_path (_join_path cfg.remote_side_path rp) lp)
        (totalBytesOf env.localWalk) env.localWalk.length (sortFilesByRel env.localWalk)
        ⟨0, 0, [], [], []⟩ hsne with ⟨e, he1, he2⟩
    rw [hevents, dirLoopResult, he1, Option.map_some']
    have he2' : e.percent = (if 0 < totalBytesOf env.localWalk then
        (dirLoopResult env cfg lp rp).bytes * 100 / totalBytesOf env.localWalk
      else if 0 < env.localWalk.length then
        (dirLoopResult env cfg lp rp).done * 100 / env.localWalk.length else 100) := he2
    rw [hbytes, hdone] at he2'
    by_cases htb : 0 < totalBytesOf env.localWalk
    · rw [if_pos htb] at he2'
      rw [he2', Nat.mul_comm, Nat.mul_div_cancel _ htb]
    · have htf : 0 < env.localWalk.length := List.length_pos.2 hne
      rw [if_neg htb, if_pos htf] at he2'
      rw [he2', Nat.mul_comm, Nat.mul_div_cancel _ htf]
  · intro e he
    rw [hevents, dirLoopResult] at he
    exact dirLoop_events_spec env.uploadOk (_join_path cfg.server_side_path lp)
      (_join_path (_join_path cfg.remote_side_path rp) lp)
      (totalBytesOf env.localWalk) env.localWalk.length (sortFilesByRel env.localWalk)
      ⟨0, 0, [], [], []⟩ (by intro e' he'; simp [progressEvents] at he') e he

/-- C3 witness: the amended theorem applied to the sample worker (which connects):
STREAM_FILE yields percents `[0, 100]`, and the one-file STREAM_DIRECTORY run yields
one event ending at percent 100. -/
theorem C3_progress_events_witness :
    sampleEnv.connectOk = true ∧
    (progressEvents (handleUploadFile sampleEnv sampleCfg ("a.txt") "sub").pubs).map
      ProgressPayload.percent = [0, 100] ∧
    (progressEvents (handleUploadDirectory sampleEnv sampleCfg ("a.txt") "sub").pubs).length
      = sampleEnv.localWalk.length ∧
    ((progressEvents (handleUploadDirectory sampleEnv sampleCfg ("a.txt") "sub").pubs).getLast?).map
      ProgressPayload.percent = some 100 := by
  have h := C3_progress_events_amended sampleEnv sampleCfg ("a.txt") "sub" rfl
  exact ⟨rfl, h.1, h.2.1, h.2.2.1 (by decide)⟩

/-! ### C4: directory-upload verification. -/

lemma sortStrings_perm (l : List String) : (sortStrings l).Perm l :=
  List.perm_insertionSort _ l

lemma sortStrings_eq_nil {l : List String} : sortStrings l = [] ↔ l = [] := by
  constructor
  · intro h
    have hp := sortStrings_perm l
    rw [h] at hp
    exact hp.symm.eq_nil
  · intro h
    rw [h]
    rfl

lemma mem_sortStrings {k : String} {l : List String} : k ∈ sortStrings l ↔ k ∈ l :=
  (sortStrings_perm l).mem_iff

lemma sizeDiffers_eq_false_iff (l r : Option Nat) : sizeDiffers l r = false ↔ l = r := by
  cases l with
  | none => cases r <;> simp [sizeDiffers]
  | some a => cases r <;> simp [sizeDiffers]

lemma uploadDirVerify_missing (localMap remoteMap : List (String × Option Nat))
    (errs : List String) :
    (uploadDirVerify localMap remoteMap errs).missing_on_remote =
      sortStrings (((localMap.map Prod.fst).dedup).filter
        (fun k => decide (¬ k ∈ (remoteMap.map Prod.fst).dedup))) := rfl

lemma uploadDirVerify_mismatches (localMap remoteMap : List (String × Option Nat))
    (errs : List String) :
    (uploadDirVerify localMap remoteMap errs).size_mismatches =
      (sortStrings (((localMap.map Prod.fst).dedup).filter
        (fun k => decide (k ∈ (remoteMap.map Prod.fst).dedup)))).filterMap
        (fun k => if sizeDiffers (mapGet localMap k) (mapGet remoteMap k) then
          some (Mismatch.mk k (mapGet localMap k) (mapGet remoteMap k)) else none) := rfl

lemma uploadDirVerify_success_eq (localMap remoteMap : List (String × Option Nat))
    (errs : List String) :
    (uploadDirVerify localMap remoteMap errs).success =
      (((uploadDirVerify localMap remoteMap errs).missing_on_remote.length == 0) &&
       ((uploadDirVerify localMap remoteMap errs).size_mismatches.length == 0) &&
       (errs.length == 0)) := rfl

lemma lookup_append_left {k : String} {l₁ l₂ : List (String × Option Nat)}
    (h : k ∈ l₁.map Prod.fst) : (l₁ ++ l₂).lookup k = l₁.lookup k := by
  induction l₁ with
  | nil => simp at h
  | cons a t ih =>
    rw [List.cons_append]
    by_cases hk : k = a.1
    · simp [List.lookup, hk]
    · rw [List.map_cons, List.mem_cons] at h
      rcases h with h | h
      · exact absurd h hk
      · have hbeq : (k == a.1) = false := by simpa using hk
        simp only [List.lookup, hbeq]
        exact ih h

/-- C4: the upload verification's success flag is true iff every local relative path
is present on the remote with an equal recorded size and there are no per-file upload
errors; entries extra on the remote never affect the flag. -/
theorem C4_verification_success_iff (localMap remoteMap : List (String × Option Nat))
    (errs : List String) :
    ((uploadDirVerify localMap remoteMap errs).success = true ↔
      ((∀ k ∈ localMap.map Prod.fst, k ∈ remoteMap.map Prod.fst) ∧
       (∀ k ∈ localMap.map Prod.fst, k ∈ remoteMap.map Prod.fst →
         mapGet localMap k = mapGet remoteMap k) ∧
       errs = [])) ∧
    (∀ extras : List (String × Option Nat),
      (∀ k ∈ extras.map Prod.fst, ¬ k ∈ localMap.map Prod.fst) →
      (uploadDirVerify localMap (remoteMap ++ extras) errs).success =
        (uploadDirVerify localMap remoteMap errs).success) := by
  constructor
  · rw [uploadDirVerify_success_eq]
    constructor
    · intro hsu
      simp only [Bool.and_eq_true, beq_iff_eq, List.length_eq_zero] at hsu
      obtain ⟨⟨hmiss, hmis⟩, herr⟩ := hsu
      refine ⟨?_, ?_, herr⟩
      · intro k hk
        rw [uploadDirVerify_missing] at hmiss
        have h1 := sortStrings_eq_nil.1 hmiss
        by_contra hkr
        have h2 : k ∈ ((localMap.map Prod.fst).dedup).filter
            (fun k => decide (¬ k ∈ (remoteMap.map Prod.fst).dedup)) :=
          List.mem_filter.2 ⟨List.mem_dedup.2 hk, by simpa [List.mem_dedup] using hkr⟩
        rw [h1] at h2
        simp at h2
      · intro k hk hkr
        rw [uploadDirVerify_mismatches] at hmis
        have h1 := List.filterMap_eq_nil_iff.1 hmis k (mem_sortStrings.2
          (List.mem_filter.2 ⟨List.mem_dedup.2 hk, by simpa [List.mem_dedup] using hkr⟩))
        by_cases hd : sizeDiffers (mapGet localMap k) (mapGet remoteMap k)
        · rw [if_pos hd] at h1
          simp at h1
        · exact (sizeDiffers_eq_false_iff _ _).1 (by simpa using hd)
    · intro hsu
      obtain ⟨h1, h2, h3⟩ := hsu
      simp only [Bool.and_eq_true, beq_iff_eq, List.length_eq_zero]
      refine ⟨⟨?_, ?_⟩, h3⟩
      · rw [uploadDirVerify_missing]
        apply sortStrings_eq_nil.2
        apply List.filter_eq_nil_iff.2
        intro k hk
        simp only [decide_eq_true_eq, Decidable.not_not]
        exact List.mem_dedup.2 (h1 k (List.mem_dedup.1 hk))
      · rw [uploadDirVerify_mismatches]
        apply List.filterMap_eq_nil_iff.2
        intro k hk
        have hmem := List.mem_filter.1 (mem_sortStrings.1 hk)
        have hloc : k ∈ localMap.map Prod.fst := List.mem_dedup.1 hmem.1
        have hrem : k ∈ remoteMap.map Prod.fst := List.mem_dedup.1 (by
          simpa using hmem.2)
        rw [if_neg (by simp [(sizeDiffers_eq_false_iff _ _).2 (h2 k hloc hrem)])]
  · intro extras hex
    have hkeymap : ((remoteMap ++ extras).map Prod.fst) =
        remoteMap.map Prod.fst ++ extras.map Prod.fst := List.map_append _ _ _
    have hmemiff : ∀ k ∈ (localMap.map Prod.fst).dedup,
        (k ∈ ((remoteMap ++ extras).map Prod.fst).dedup ↔
         k ∈ (remoteMap.map Prod.fst).dedup) := by
      intro k hk
      rw [List.mem_dedup, List.mem_dedup, hkeymap, List.mem_append]
      constructor
      · intro h
        rcases h with h | h
        · exact h
        · exact absurd (List.mem_dedup.1 hk) (hex k h)
      · exact Or.inl
    have hmissing_eq : ((localMap.map Prod.fst).dedup).filter
        (fun k => decide (¬ k ∈ ((remoteMap ++ extras).map Prod.fst).dedup)) =
        ((localMap.map Prod.fst).dedup).filter
        (fun k => decide (¬ k ∈ (remoteMap.map Prod.fst).dedup)) := by
      apply List.filter_congr
      intro k hk
      exact decide_eq_decide.2 (not_congr (hmemiff k hk))
    have hcommon_eq : ((localMap.map Prod.fst).dedup).filter
        (fun k => decide (k ∈ ((remoteMap ++ extras).map Prod.fst).dedup)) =
        ((localMap.map Prod.fst).dedup).filter
        (fun k => decide (k ∈ (remoteMap.map Prod.fst).dedup)) := by
      apply List.filter_congr
      intro k hk
      exact decide_eq_decide.2 (hmemiff k hk)
    have hget : ∀ k ∈ sortStrings (((localMap.map Prod.fst).dedup).filter
        (fun k => decide (k ∈ (remoteMap.map Prod.fst).dedup))),
        mapGet (remoteMap ++ extras) k = mapGet remoteMap k := by
      intro k hk
      have hmem := List.mem_filter.1 (mem_sortStrings.1 hk)
      have hrem : k ∈ remoteMap.map Prod.fst := List.mem_dedup.1 (by simpa using hmem.2)
      rw [mapGet, mapGet, lookup_append_left hrem]
    rw [uploadDirVerify_success_eq, uploadDirVerify_success_eq,
      uploadDirVerify_missing, uploadDirVerify_missing,
      uploadDirVerify_mismatches, uploadDirVerify_mismatches,
      hmissing_eq, hcommon_eq]
    have hfm : (sortStrings (((localMap.map Prod.fst).dedup).filter
        (fun k => decide (k ∈ (remoteMap.map Prod.fst).dedup)))).filterMap
        (fun k => if sizeDiffers (mapGet localMap k) (mapGet (remoteMap ++ extras) k) then
          some (Mismatch.mk k (mapGet localMap k) (mapGet (remoteMap ++ extras) k))
          else none) =
        (sortStrings (((localMap.map Prod.fst).dedup).filter
        (fun k => decide (k ∈ (remoteMap.map Prod.fst).dedup)))).filterMap
        (fun k => if sizeDiffers (mapGet localMap k) (mapGet remoteMap k) then
          some (Mismatch.mk k (mapGet localMap k) (mapGet remoteMap k)) else none) := by
      apply List.filterMap_congr
      intro k hk
      rw [hget k hk]
    rw [hfm]

/-- C4 witness: the success characterization applied to a one-file upload whose remote
listing has the file at the right size plus one extra remote entry: success holds, and
appending the extra entry leaves the flag unchanged. -/
theorem C4_verification_success_witness :
    (uploadDirVerify [("a.txt", some 5)] [("a.txt", some 5)] []).success = true ∧
    (uploadDirVerify [("a.txt", some 5)] ([("a.txt", some 5)] ++ [("extra.bin", some 9)])
      []).success = (uploadDirVerify [("a.txt", some 5)] [("a.txt", some 5)] []).success ∧
    (uploadDirVerify [("a.txt", some 5)] [("a.txt", some 4)] []).success = false := by
  have h := C4_verification_success_iff [("a.txt", some 5)] [("a.txt", some 5)] []
  refine ⟨h.1.2 ⟨by decide, by decide, rfl⟩, h.2 [("extra.bin", some 9)] (by decide),
    by decide⟩

/-! ### Supervisor lemmas and C2, C5, C6, C10. -/

lemma declarePeripherals_cons_none {p : Peripheral} {ps : List Peripheral} {t : Topology}
    (h : peripheralIndex p = none) :
    declarePeripherals (p :: ps) t =
      .error ("Peripheral index is required for queue declaration") := by
  simp [declarePeripherals, h]

lemma declarePeripherals_cons_some {p : Peripheral} {ps : List Peripheral} {t : Topology}
    {vi : String} (h : peripheralIndex p = some vi) :
    declarePeripherals (p :: ps) t = declarePeripherals ps (declareStep t vi) := by
  simp [declarePeripherals, h]

lemma declareStep_eq (t : Topology) (vi : String) :
    declareStep t vi =
      if ("send_queue_index_" ++ vi) ∈ t.consumed then
        Topology.mk (t.declared ++ ["recv_queue_index_" ++ vi, "send_queue_index_" ++ vi])
          t.subs t.consumed (t.pool ++ [vi])
      else
        Topology.mk (t.declared ++ ["recv_queue_index_" ++ vi, "send_queue_index_" ++ vi])
          (t.subs ++ [("send_queue_index_" ++ vi, vi)])
          (t.consumed ++ ["send_queue_index_" ++ vi]) (t.pool ++ [vi]) := rfl

lemma declareStep_declared (t : Topology) (vi : String) :
    (declareStep t vi).declared =
      t.declared ++ ["recv_queue_index_" ++ vi, "send_queue_index_" ++ vi] := by
  rw [declareStep_eq]
  split <;> rfl

lemma declareStep_subs (t : Topology) (vi : String) :
    (declareStep t vi).subs = t.subs ∨
    (declareStep t vi).subs = t.subs ++ [("send_queue_index_" ++ vi, vi)] := by
  rw [declareStep_eq]
  split
  · exact Or.inl rfl
  · exact Or.inr rfl

lemma declarePeripherals_mono : ∀ (ps : List Peripheral) (t t' : Topology),
    declarePeripherals ps t = .ok t' → ∀ q ∈ t.declared, q ∈ t'.declared := by
  intro ps
  induction ps with
  | nil =>
    intro t t' h q hq
    have ht : t = t' := Except.ok.inj h
    rw [← ht]
    exact hq
  | cons p ps ih =>
    intro t t' h q hq
    cases hpi : peripheralIndex p with
    | none =>
      rw [declarePeripherals_cons_none hpi] at h
      cases h
    | some vi =>
      rw [declarePeripherals_cons_some hpi] at h
      apply ih _ _ h
      rw [declareStep_declared]
      exact List.mem_append_left _ hq

lemma declarePeripherals_subs_spec : ∀ (ps : List Peripheral) (t t' : Topology),
    declarePeripherals ps t = .ok t' →
    ∀ x ∈ t'.subs, x ∈ t.subs ∨
      (x.1 = "send_queue_index_" ++ x.2 ∧ x.1 ∈ t'.declared ∧
        "recv_queue_index_" ++ x.2 ∈ t'.declared) := by
  intro ps
  induction ps with
  | nil =>
    intro t t' h x hx
    have ht : t = t' := Except.ok.inj h
    rw [ht]
    exact Or.inl hx
  | cons p ps ih =>
    intro t t' h x hx
    cases hpi : peripheralIndex p with
    | none =>
      rw [declarePeripherals_cons_none hpi] at h
      cases h
    | some vi =>
      rw [declarePeripherals_cons_some hpi] at h
      rcases ih _ _ h x hx with h1 | h1
      · rcases declareStep_subs t vi with h2 | h2
        · rw [h2] at h1
          exact Or.inl h1
        · rw [h2] at h1
          rcases List.mem_append.1 h1 with h3 | h3
          · exact Or.inl h3
          · right
            have hx2 : x = ("send_queue_index_" ++ vi, vi) := List.mem_singleton.1 h3
            have hdecl := declareStep_declared t vi
            refine ⟨by rw [hx2], ?_, ?_⟩
            · apply declarePeripherals_mono _ _ _ h
              rw [hdecl, hx2]
              simp
            · apply declarePeripherals_mono _ _ _ h
              rw [hdecl, hx2]
              simp
      · exact Or.inr h1

lemma declarePeripherals_declares : ∀ (ps : List Peripheral) (t t' : Topology),
    declarePeripherals ps t = .ok t' →
    ∀ p ∈ ps, ∀ vi, peripheralIndex p = some vi →
      "recv_queue_index_" ++ vi ∈ t'.declared ∧
      "send_queue_index_" ++ vi ∈ t'.declared := by
  intro ps
  induction ps with
  | nil =>
    intro t t' _ p hp
    simp at hp
  | cons q qs ih =>
    intro t t' h p hp vi hvi
    cases hpi : peripheralIndex q with
    | none =>
      rw [declarePeripherals_cons_none hpi] at h
      cases h
    | some vi0 =>
      rw [declarePeripherals_cons_some hpi] at h
      rcases List.mem_cons.1 hp with rfl | hp'
      · have hvv : vi0 = vi := by
          rw [hpi] at hvi
          exact Option.some.inj hvi
        subst hvv
        constructor <;>
          · apply declarePeripherals_mono _ _ _ h
            rw [declareStep_declared]
            simp
      · exact ih _ _ h p hp' vi hvi

/-- C2 counterexample: with a peripheral of virtual index `7`, the supervisor
subscribes the worker's broker handler to `send_queue_index_7` (not the claimed
`recv_queue_index_7`), and the worker's `_send` publishes on `recv_queue_index_7`
(not the claimed `send_queue_index_7`). -/
theorem C2_queue_direction_counterexample :
    declare_queues [⟨[("GENERIC_FILE_TRANSFER", [("index", "7")])]⟩] =
      .ok ⟨["recv_queue_index_7", "send_queue_index_7"], [("send_queue_index_7", "7")],
        ["send_queue_index_7"], ["7"]⟩ ∧
    (mkSend ("7") (ActionTable.PROGRESS_SEND_FILE, RVal.empty)).queue =
      "recv_queue_index_7" ∧
    ("send_queue_index_7" : String) ≠ "recv_queue_index_7" :=
  ⟨rfl, rfl, by decide⟩

/-- C2 (amended): queue directions are the reverse of the claim: for every peripheral
with virtual index `vi` both `recv_queue_index_<vi>` and `send_queue_index_<vi>` are
declared, inbound commands reach the worker through the subscription on
`send_queue_index_<vi>`, and the worker publishes all its progress and result
messages on `recv_queue_index_<vi>`. -/
theorem C2_queue_direction_amended (ps : List Peripheral) (t : Topology)
    (h : declare_queues ps = .ok t) :
    (∀ q vi, (q, vi) ∈ t.subs → q = "send_queue_index_" ++ vi ∧
      "recv_queue_index_" ++ vi ∈ t.declared ∧ q ∈ t.declared) ∧
    (∀ p ∈ ps, ∀ vi, peripheralIndex p = some vi →
      "recv_queue_index_" ++ vi ∈ t.declared ∧ "send_queue_index_" ++ vi ∈ t.declared) ∧
    (∀ env cfg body s, s ∈ sendsOf (processMessage env cfg body) →
      s.queue = "recv_queue_index_" ++ cfg.index) := by
  refine ⟨?_, ?_, ?_⟩
  · intro q vi hqv
    rcases declarePeripherals_subs_spec ps emptyTopology t h (q, vi) hqv with h1 | h1
    · simp [emptyTopology] at h1
    · exact ⟨h1.1, h1.2.2, h1.2.1⟩
  · intro p hp vi hvi
    exact declarePeripherals_declares ps emptyTopology t h p hp vi hvi
  · intro env cfg body s hs
    cases body with
    | none =>
      have hempty : sendsOf (processMessage env cfg none) = [] := rfl
      rw [hempty] at hs
      simp at hs
    | some e =>
      rw [sendsOf_processMessage_some] at hs
      rcases List.mem_map.1 hs with ⟨av, _, hav⟩
      rw [← hav]
      rfl

/-- C2 witness: the amended theorem applied to one peripheral of index `9` (whose
declaration evaluates to a concrete topology) and to the ERROR reply emitted for an
unknown action on the sample worker. -/
theorem C2_queue_direction_witness :
    declare_queues [⟨[("GENERIC_FILE_TRANSFER", [("index", "9")])]⟩] =
      .ok ⟨["recv_queue_index_9", "send_queue_index_9"], [("send_queue_index_9", "9")],
        ["send_queue_index_9"], ["9"]⟩ ∧
    ("send_queue_index_9" : String) = "send_queue_index_" ++ "9" ∧
    ("recv_queue_index_" ++ "9" : String) ∈
      (["recv_queue_index_9", "send_queue_index_9"] : List String) ∧
    (mkSend sampleCfg.index (ActionTable.ERROR,
      RVal.text ("Comando desconhecido: WAT"))).queue =
      "recv_queue_index_" ++ sampleCfg.index := by
  have h := C2_queue_direction_amended [⟨[("GENERIC_FILE_TRANSFER", [("index", "9")])]⟩]
    ⟨["recv_queue_index_9", "send_queue_index_9"], [("send_queue_index_9", "9")],
      ["send_queue_index_9"], ["9"]⟩ rfl
  refine ⟨rfl, ?_, ?_, ?_⟩
  · exact (h.1 ("send_queue_index_9") "9" (by decide)).1
  · exact (h.1 ("send_queue_index_9") "9" (by decide)).2.1
  · exact h.2.2 sampleEnv sampleCfg (some ⟨some ("WAT"), "", ""⟩)
      (mkSend sampleCfg.index (ActionTable.ERROR, RVal.text ("Comando desconhecido: WAT")))
      (by decide)

lemma declarePeripherals_error_of_missing : ∀ (ps : List Peripheral) (t : Topology),
    (∃ p ∈ ps, peripheralIndex p = none) →
    ∃ msg, declarePeripherals ps t = .error msg := by
  intro ps
  induction ps with
  | nil =>
    intro t h
    rcases h with ⟨p, hp, _⟩
    simp at hp
  | cons q qs ih =>
    intro t h
    cases hq : peripheralIndex q with
    | none => exact ⟨_, declarePeripherals_cons_none hq⟩
    | some vi =>
      rcases h with ⟨p, hp, hpi⟩
      rcases List.mem_cons.1 hp with rfl | hp'
      · rw [hq] at hpi
        cases hpi
      · rw [declarePeripherals_cons_some hq]
        exact ih _ ⟨p, hp', hpi⟩

/-- C5: if any configured peripheral's virtual index resolves to `None`, queue
declaration raises (a `ValueError` in the source) and the supervisor's `start` stops
instead of running with a partial topology. -/
theorem C5_missing_index_aborts (ps : List Peripheral)
    (h : ∃ p ∈ ps, peripheralIndex p = none) :
    (∃ msg, declare_queues ps = .error msg) ∧ startOutcome ps = .stopped := by
  rcases declarePeripherals_error_of_missing ps emptyTopology h with ⟨msg, hmsg⟩
  have hdq : declare_queues ps = .error msg := hmsg
  refine ⟨⟨msg, hdq⟩, ?_⟩
  unfold startOutcome
  rw [hdq]

/-- C5 witness: a peripheral whose channel map lacks the `GENERIC_FILE_TRANSFER`
index: declaration errors and start stops. -/
theorem C5_missing_index_witness :
    peripheralIndex ⟨[]⟩ = none ∧
    (∃ msg, declare_queues [⟨([] : List (String × List (String × String)))⟩] =
      .error msg) ∧
    startOutcome [⟨[]⟩] = .stopped := by
  have h := C5_missing_index_aborts [⟨[]⟩] ⟨⟨[]⟩, List.mem_singleton.2 rfl, rfl⟩
  exact ⟨rfl, h.1, h.2⟩

/-- C6: `reconnect_now` as implemented is a no-op — evaluated on a live supervisor
state it returns the state untouched and `None`, performing no teardown, no
reconnection and no topology redeclaration, contrary to its own docstring and the
spec. -/
theorem C6_reconnect_now_noop :
    reconnect_now ⟨true, true, 3⟩ = (⟨true, true, 3⟩, none) ∧
    (reconnect_now ⟨true, true, 3⟩).1.connectionOpen = true ∧
    (reconnect_now ⟨true, true, 3⟩).1.channelOpen = true ∧
    (reconnect_now ⟨true, true, 3⟩).1.generation = 3 :=
  ⟨rfl, rfl, rfl, rfl⟩

lemma lookup_updatePool_self : ∀ (pool : List (String × List Message)) (i : String)
    (m : Message),
    (updatePool pool i m).lookup i = (pool.lookup i).map (fun q => q ++ [m]) := by
  intro pool i m
  induction pool with
  | nil => rfl
  | cons a t ih =>
    obtain ⟨k, v⟩ := a
    by_cases hk : k = i
    · subst hk
      have h1 : updatePool ((k, v) :: t) k m = (k, v ++ [m]) :: updatePool t k m := by
        simp [updatePool]
      rw [h1]
      simp [List.lookup]
    · have h1 : updatePool ((k, v) :: t) i m = (k, v) :: updatePool t i m := by
        simp [updatePool, hk]
      rw [h1]
      have hbeq : (i == k) = false := by
        simp only [beq_eq_false_iff_ne]
        exact fun hc => hk hc.symm
      simp only [List.lookup, hbeq]
      exact ih

lemma lookup_updatePool_other : ∀ (pool : List (String × List Message)) (i j : String)
    (m : Message), j ≠ i →
    (updatePool pool i m).lookup j = pool.lookup j := by
  intro pool i j m hj
  induction pool with
  | nil => rfl
  | cons a t ih =>
    obtain ⟨k, v⟩ := a
    by_cases hk : k = i
    · subst hk
      have h1 : updatePool ((k, v) :: t) k m = (k, v ++ [m]) :: updatePool t k m := by
        simp [updatePool]
      rw [h1]
      have hbeq : (j == k) = false := by
        simp only [beq_eq_false_iff_ne]
        exact hj
      simp only [List.lookup, hbeq]
      exact ih
    · have h1 : updatePool ((k, v) :: t) i m = (k, v) :: updatePool t i m := by
        simp [updatePool, hk]
      rw [h1]
      by_cases hja : j = k
      · have hbeq : (j == k) = true := by simp [hja]
        simp [List.lookup, hbeq]
      · have hbeq : (j == k) = false := by simp [hja]
        simp only [List.lookup, hbeq]
        exact ih

/-- C10: routing an internal message drops it (returning the pool unchanged, without
raising) when the index is absent or unregistered, and otherwise appends it to exactly
the registered peripheral's command queue, leaving every other queue unchanged. -/
theorem C10_route_to_next_queue_spec (pool : List (String × List Message)) (m : Message) :
    (m.index = none → route_to_next_queue pool m = pool) ∧
    (∀ i, m.index = some i → pool.lookup i = none → route_to_next_queue pool m = pool) ∧
    (∀ i q, m.index = some i → pool.lookup i = some q →
      (route_to_next_queue pool m).lookup i = some (q ++ [m]) ∧
      (∀ j, j ≠ i → (route_to_next_queue pool m).lookup j = pool.lookup j)) := by
  refine ⟨?_, ?_, ?_⟩
  · intro h
    simp [route_to_next_queue, h]
  · intro i hi hl
    simp [route_to_next_queue, hi, hl]
  · intro i q hi hl
    have hroute : route_to_next_queue pool m = updatePool pool i m := by
      simp [route_to_next_queue, hi, hl]
    constructor
    · rw [hroute, lookup_updatePool_self, hl]
      rfl
    · intro j hj
      rw [hroute]
      exact lookup_updatePool_other pool i j m hj

/-- C10 witness: the routing theorem applied to a pool with one registered index `1`:
a message with index `1` lands only on that queue, a message without index leaves the
pool unchanged. -/
theorem C10_route_to_next_queue_witness :
    (route_to_next_queue [("1", ([] : List Message))] ⟨some ("1"), "go"⟩).lookup ("1") =
      some ([] ++ [⟨some ("1"), "go"⟩]) ∧
    (route_to_next_queue [("1", ([] : List Message))] ⟨some ("1"), "go"⟩).lookup ("2") =
      ([("1", ([] : List Message))].lookup ("2")) ∧
    route_to_next_queue [("1", ([] : List Message))] ⟨none, "x"⟩ =
      [("1", ([] : List Message))] := by
  have h := C10_route_to_next_queue_spec [("1", ([] : List Message))] ⟨some ("1"), "go"⟩
  have h2 := C10_route_to_next_queue_spec [("1", ([] : List Message))] ⟨none, "x"⟩
  exact ⟨(h.2.2 ("1") [] rfl rfl).1, (h.2.2 ("1") [] rfl rfl).2 ("2") (by decide), h2.1 rfl⟩

end TeepArq
